import Mathlib

/-!
Verification development for the battleships game engine
(src/battleships/battleships.py). The Python source is shallowly embedded:
mutable objects become values threaded through functions, Python list
indexing (which admits negative wrap-around and raises IndexError when out
of range) becomes Option-valued access, and a function whose execution can
raise an uncaught exception returns none in that case.
-/

namespace Battleships

/-- Modelled from the spec: the geometry component is a 2D integer vector
type with value equality (the vec2 module is not part of this repository's
sources). -/
structure Vec2 where
  x : Int
  y : Int
deriving DecidableEq

/-- Modelled from the spec: component-wise vector addition. -/
def vec_add (a b : Vec2) : Vec2 := ⟨a.x + b.x, a.y + b.y⟩

/-- Modelled from the spec: scalar multiplication of a vector. -/
def vec_scalar_multiply (v : Vec2) (k : Int) : Vec2 := ⟨v.x * k, v.y * k⟩

/-- Cell states of a player's own board (class SquareState). -/
inductive SquareState where
  | EMPTY
  | SHIP
  | MISS
  | HIT
deriving DecidableEq

/-- Cell states of a knowledge board (class KnowledgeSquareState). -/
inductive KnowledgeSquareState where
  | UNKNOWN
  | MISS
  | HIT
deriving DecidableEq

/-- The four placement directions (class Orientation). -/
inductive Orientation where
  | N
  | E
  | S
  | W
deriving DecidableEq

/-- The unit vector attached to each Orientation member. -/
def Orientation.value : Orientation → Vec2
  | .N => ⟨0, -1⟩
  | .E => ⟨1, 0⟩
  | .S => ⟨0, 1⟩
  | .W => ⟨-1, 0⟩

/-- Result values of fire_missile (class FireResult). -/
inductive FireResult where
  | HIT
  | MISS
  | FAIL
  | SUNK
deriving DecidableEq

/-- A ship: hit counter, sunk flag and the list of occupied squares
(class Ship; the constructor sets hits = 0 and sunk = False). -/
structure Ship where
  hits : Nat
  sunk : Bool
  squares : List Vec2
deriving DecidableEq

/-- Ship.hit: increment the counter, and when it reaches the number of
squares set the sunk flag; the Bool is the method's return value. -/
def Ship.hit (s : Ship) : Ship × Bool :=
  let hits := s.hits + 1
  if hits = s.squares.length then
    ({ s with hits := hits, sunk := true }, true)
  else
    ({ s with hits := hits }, false)

-- Constants of the source file.
def LOOP_MAX : Nat := 100000
def BOARD_WIDTH : Nat := 10
def BOARD_HEIGHT : Nat := 10
def SHIP_LENGTHS : List Int := [5, 4, 3, 3, 2]

/-! ## Python list indexing

Python `l[i]` accepts -len(l) <= i < len(l), where a negative index counts
from the end; anything else raises IndexError. `lidx`/`lset` are plain
positional access and update; `pyIdx`/`pySetL` add the Python index rules,
returning none where Python raises. -/

def lidx : List α → Nat → Option α
  | [], _ => none
  | a :: _, 0 => some a
  | _ :: l, n + 1 => lidx l n

def lset : List α → Nat → α → List α
  | [], _, _ => []
  | _ :: l, 0, v => v :: l
  | a :: l, n + 1, v => a :: lset l n v

/-- The effective position of Python index i in a list of length len
(meaningful when -len <= i < len). -/
def pyNat (len : Nat) (i : Int) : Nat := (if 0 ≤ i then i else i + len).toNat

/-- Python read l[i]. -/
def pyIdx (l : List α) (i : Int) : Option α :=
  if -(l.length : Int) ≤ i ∧ i < l.length then lidx l (pyNat l.length i) else none

/-- Python write l[i] = v (none models the IndexError). -/
def pySetL (l : List α) (i : Int) (v : α) : Option (List α) :=
  if -(l.length : Int) ≤ i ∧ i < l.length then some (lset l (pyNat l.length i) v) else none

/-- Python read b[y][x]. -/
def pyGet2 (b : List (List α)) (y x : Int) : Option α :=
  (pyIdx b y).bind fun row => pyIdx row x

/-- Python write b[y][x] = v: fetch row b[y], update it in place. -/
def pySet2 (b : List (List α)) (y x : Int) (v : α) : Option (List (List α)) :=
  (pyIdx b y).bind fun row => (pySetL row x v).bind fun row2 => pySetL b y row2

/-- A height x width rectangular grid, the shape of every board the
program builds. -/
def Rect (b : List (List α)) (h w : Nat) : Prop :=
  b.length = h ∧ ∀ row ∈ b, row.length = w

instance {b : List (List α)} {h w : Nat} : Decidable (Rect b h w) := by
  unfold Rect
  infer_instance

/-! ## Basic lemmas about lidx and lset -/

theorem lidx_isSome_iff {l : List α} {n : Nat} : (lidx l n).isSome ↔ n < l.length := by
  induction l generalizing n with
  | nil => simp [lidx]
  | cons a l ih =>
    cases n with
    | zero => simp [lidx]
    | succ n => simpa [lidx, Nat.succ_lt_succ_iff] using ih

theorem lidx_lt_length {l : List α} {n : Nat} (h : n < l.length) : ∃ a, lidx l n = some a := by
  have := lidx_isSome_iff.mpr h
  exact Option.isSome_iff_exists.mp this

theorem mem_of_lidx {l : List α} {n : Nat} {a : α} (h : lidx l n = some a) : a ∈ l := by
  induction l generalizing n with
  | nil => simp [lidx] at h
  | cons b l ih =>
    cases n with
    | zero => simp [lidx] at h; simp [h]
    | succ n => exact List.mem_cons_of_mem _ (ih h)

theorem length_lset (l : List α) (n : Nat) (v : α) : (lset l n v).length = l.length := by
  induction l generalizing n with
  | nil => rfl
  | cons a l ih =>
    cases n with
    | zero => rfl
    | succ n => simp [lset, ih]

theorem lidx_lset_self {l : List α} {n : Nat} (v : α) (h : n < l.length) :
    lidx (lset l n v) n = some v := by
  induction l generalizing n with
  | nil => simp at h
  | cons a l ih =>
    cases n with
    | zero => rfl
    | succ n => exact ih (Nat.lt_of_succ_lt_succ h)

theorem lidx_lset_of_ne {l : List α} {n m : Nat} (v : α) (h : n ≠ m) :
    lidx (lset l n v) m = lidx l m := by
  induction l generalizing n m with
  | nil => rfl
  | cons a l ih =>
    cases n with
    | zero => cases m with
      | zero => exact absurd rfl h
      | succ m => rfl
    | succ n => cases m with
      | zero => rfl
      | succ m => exact ih fun hh => h (by omega)

theorem mem_lset {l : List α} {n : Nat} {v a : α} (h : a ∈ lset l n v) : a ∈ l ∨ a = v := by
  induction l generalizing n with
  | nil => simp [lset] at h
  | cons b l ih =>
    cases n with
    | zero =>
      rcases List.mem_cons.mp h with h | h
      · right; exact h
      · left; exact List.mem_cons_of_mem _ h
    | succ n =>
      rcases List.mem_cons.mp h with h | h
      · left; simp [h]
      · rcases ih h with h | h
        · left; exact List.mem_cons_of_mem _ h
        · right; exact h

theorem lidx_replicate {n m : Nat} {a : α} (h : m < n) :
    lidx (List.replicate n a) m = some a := by
  induction n generalizing m with
  | zero => omega
  | succ n ih =>
    cases m with
    | zero => rfl
    | succ m => exact ih (Nat.lt_of_succ_lt_succ h)

/-! ## Python index arithmetic under the board's bounds -/

/-- The canonical (non-negative) form of Python index i for length len. -/
def pyCanon (len : Nat) (i : Int) : Int := ((pyNat len i : Nat) : Int)

theorem pyNat_lt {len : Nat} {i : Int} (h1 : -(len : Int) ≤ i) (h2 : i < len) :
    pyNat len i < len := by
  unfold pyNat
  split <;> omega

theorem pyNat_of_nonneg {len : Nat} {i : Int} (h : 0 ≤ i) : pyNat len i = i.toNat := by
  simp [pyNat, h]

theorem pyCanon_of_nonneg {len : Nat} {i : Int} (h0 : 0 ≤ i) (h1 : i < len) :
    pyCanon len i = i := by
  unfold pyCanon pyNat
  split <;> omega

theorem pyCanon_nonneg (len : Nat) (i : Int) : 0 ≤ pyCanon len i := by
  unfold pyCanon
  omega

theorem pyCanon_lt {len : Nat} {i : Int} (h1 : -(len : Int) ≤ i) (h2 : i < len) :
    pyCanon len i < len := by
  have := pyNat_lt h1 h2
  unfold pyCanon
  omega

theorem pyCanon_toNat (len : Nat) (i : Int) : (pyCanon len i).toNat = pyNat len i := by
  unfold pyCanon
  omega

theorem pyIdx_eq_lidx {l : List α} {i : Int} (h1 : -(l.length : Int) ≤ i)
    (h2 : i < l.length) : pyIdx l i = lidx l (pyNat l.length i) := by
  rw [pyIdx, if_pos ⟨h1, h2⟩]

theorem pyIdx_nonneg {l : List α} {i : Int} (h0 : 0 ≤ i) (h1 : i < l.length) :
    pyIdx l i = lidx l i.toNat := by
  rw [pyIdx_eq_lidx (by omega) h1, pyNat_of_nonneg h0]

theorem pyIdx_some_bounds {l : List α} {i : Int} {a : α} (h : pyIdx l i = some a) :
    -(l.length : Int) ≤ i ∧ i < l.length := by
  unfold pyIdx at h
  split at h
  · assumption
  · exact absurd h (by simp)

theorem pySetL_some {l : List α} {i : Int} {v : α} {l2 : List α}
    (h : pySetL l i v = some l2) :
    (-(l.length : Int) ≤ i ∧ i < l.length) ∧ l2 = lset l (pyNat l.length i) v := by
  unfold pySetL at h
  split at h
  · exact ⟨by assumption, (Option.some.inj h).symm⟩
  · exact absurd h (by simp)

theorem pySetL_of_bounds {l : List α} {i : Int} (v : α) (h1 : -(l.length : Int) ≤ i)
    (h2 : i < l.length) : pySetL l i v = some (lset l (pyNat l.length i) v) := by
  rw [pySetL, if_pos ⟨h1, h2⟩]

theorem Rect.row_length {b : List (List α)} {H W : Nat} (hr : Rect b H W)
    {row : List α} (h : row ∈ b) : row.length = W := hr.2 row h

/-- Reading any in-range (possibly negative) pair of indices from a
rectangular board succeeds. -/
theorem pyGet2_some_of_rect {b : List (List α)} {H W : Nat} (hr : Rect b H W)
    {y x : Int} (hy1 : -(H : Int) ≤ y) (hy2 : y < H) (hx1 : -(W : Int) ≤ x)
    (hx2 : x < W) : ∃ v, pyGet2 b y x = some v := by
  have hby1 : -(b.length : Int) ≤ y := by rw [hr.1]; exact hy1
  have hby2 : y < b.length := by rw [hr.1]; exact hy2
  have hlt : pyNat b.length y < b.length := pyNat_lt hby1 hby2
  obtain ⟨row, hrow⟩ := lidx_lt_length hlt
  have hmem : row ∈ b := mem_of_lidx hrow
  have hwl : row.length = W := hr.row_length hmem
  have hrx1 : -(row.length : Int) ≤ x := by rw [hwl]; exact hx1
  have hrx2 : x < row.length := by rw [hwl]; exact hx2
  obtain ⟨v, hv⟩ := lidx_lt_length (pyNat_lt hrx1 hrx2)
  refine ⟨v, ?_⟩
  simp only [pyGet2, pyIdx_eq_lidx hby1 hby2, hrow, Option.some_bind]
  rw [pyIdx_eq_lidx hrx1 hrx2, hv]

/-- A successful read is a read at the canonical cell. -/
theorem pyGet2_eq_canon {b : List (List α)} {H W : Nat} (hr : Rect b H W)
    {y x : Int} {v : α} (h : pyGet2 b y x = some v) :
    pyGet2 b (pyCanon H y) (pyCanon W x) = some v := by
  simp only [pyGet2] at h
  cases hby : pyIdx b y with
  | none => rw [hby] at h; exact absurd h (by simp)
  | some row =>
    rw [hby, Option.some_bind] at h
    obtain ⟨hy1, hy2⟩ := pyIdx_some_bounds hby
    have hwl : row.length = W :=
      hr.row_length (mem_of_lidx (by rw [← pyIdx_eq_lidx hy1 hy2]; exact hby))
    obtain ⟨hx1, hx2⟩ := pyIdx_some_bounds h
    have hHb : b.length = H := hr.1
    rw [hwl] at hx1 hx2
    rw [hHb] at hy1 hy2
    simp only [pyGet2]
    have hcby1 : -(b.length : Int) ≤ pyCanon H y := by
      have := pyCanon_nonneg H y; omega
    have hcby2 : pyCanon H y < b.length := by
      have := pyCanon_lt hy1 hy2; omega
    rw [pyIdx_eq_lidx hcby1 hcby2]
    have hcy : pyNat b.length (pyCanon H y) = pyNat b.length y := by
      rw [hHb]
      have h1 := pyCanon_nonneg H y
      have h2 := pyCanon_toNat H y
      rw [pyNat_of_nonneg h1]
      omega
    rw [hcy, ← pyIdx_eq_lidx (by omega) (by omega), hby, Option.some_bind]
    have hcrx1 : -(row.length : Int) ≤ pyCanon W x := by
      have := pyCanon_nonneg W x; omega
    have hcrx2 : pyCanon W x < row.length := by
      have := pyCanon_lt hx1 hx2; omega
    rw [pyIdx_eq_lidx hcrx1 hcrx2]
    have hcx : pyNat row.length (pyCanon W x) = pyNat row.length x := by
      rw [hwl]
      have h1 := pyCanon_nonneg W x
      have h2 := pyCanon_toNat W x
      rw [pyNat_of_nonneg h1]
      omega
    rw [hcx, ← pyIdx_eq_lidx (by omega) (by omega)]
    exact h

theorem pySet2_some_of_rect {b : List (List α)} {H W : Nat} (hr : Rect b H W)
    {y x : Int} (v : α) (hy1 : -(H : Int) ≤ y) (hy2 : y < H) (hx1 : -(W : Int) ≤ x)
    (hx2 : x < W) : ∃ b2, pySet2 b y x v = some b2 := by
  have hby1 : -(b.length : Int) ≤ y := by rw [hr.1]; exact hy1
  have hby2 : y < b.length := by rw [hr.1]; exact hy2
  obtain ⟨row, hrow⟩ := lidx_lt_length (pyNat_lt hby1 hby2)
  have hwl : row.length = W := hr.row_length (mem_of_lidx hrow)
  have hrx1 : -(row.length : Int) ≤ x := by rw [hwl]; exact hx1
  have hrx2 : x < row.length := by rw [hwl]; exact hx2
  refine ⟨lset b (pyNat b.length y) (lset row (pyNat row.length x) v), ?_⟩
  simp only [pySet2, pyIdx_eq_lidx hby1 hby2, hrow, Option.some_bind,
    pySetL_of_bounds v hrx1 hrx2]
  exact pySetL_of_bounds _ hby1 hby2

theorem pySet2_some_bounds {b : List (List α)} {H W : Nat} (hr : Rect b H W)
    {y x : Int} {v : α} {b2 : List (List α)} (h : pySet2 b y x v = some b2) :
    -(H : Int) ≤ y ∧ y < H ∧ -(W : Int) ≤ x ∧ x < W := by
  simp only [pySet2] at h
  cases hby : pyIdx b y with
  | none => rw [hby] at h; exact absurd h (by simp)
  | some row =>
    rw [hby, Option.some_bind] at h
    obtain ⟨hy1, hy2⟩ := pyIdx_some_bounds hby
    have hwl : row.length = W :=
      hr.row_length (mem_of_lidx (by rw [← pyIdx_eq_lidx hy1 hy2]; exact hby))
    cases hsx : pySetL row x v with
    | none => rw [hsx] at h; exact absurd h (by simp)
    | some row2 =>
      obtain ⟨⟨hx1, hx2⟩, _⟩ := pySetL_some hsx
      have hHb : b.length = H := hr.1
      rw [hHb] at hy1 hy2
      rw [hwl] at hx1 hx2
      exact ⟨hy1, hy2, hx1, hx2⟩

/-- What a successful write changes: exactly the canonical cell of the write,
and the board stays rectangular. -/
theorem pySet2_spec {b : List (List α)} {H W : Nat} (hr : Rect b H W)
    {y x : Int} {v : α} {b2 : List (List α)} (h : pySet2 b y x v = some b2) :
    Rect b2 H W ∧
    ∀ y2 x2 : Int, 0 ≤ y2 → y2 < (H : Int) → 0 ≤ x2 → x2 < (W : Int) →
      pyGet2 b2 y2 x2 =
        if y2 = pyCanon H y ∧ x2 = pyCanon W x then some v else pyGet2 b y2 x2 := by
  simp only [pySet2] at h
  cases hby : pyIdx b y with
  | none => rw [hby] at h; exact absurd h (by simp)
  | some row =>
    rw [hby, Option.some_bind] at h
    cases hsx : pySetL row x v with
    | none => rw [hsx] at h; exact absurd h (by simp)
    | some row2 =>
      rw [hsx, Option.some_bind] at h
      obtain ⟨⟨hy1b, hy2b⟩, hb2⟩ := pySetL_some h
      obtain ⟨⟨hx1r, hx2r⟩, hrow2⟩ := pySetL_some hsx
      obtain ⟨hy1, hy2⟩ := pyIdx_some_bounds hby
      have hrowl : lidx b (pyNat b.length y) = some row := by
        rw [← pyIdx_eq_lidx hy1 hy2]; exact hby
      have hwl : row.length = W := hr.row_length (mem_of_lidx hrowl)
      have hHb : b.length = H := hr.1
      have hrect2 : Rect b2 H W := by
        constructor
        · rw [hb2, length_lset, hHb]
        · intro r hrm
          rw [hb2] at hrm
          rcases mem_lset hrm with hh | hh
          · exact hr.2 r hh
          · rw [hh, hrow2, length_lset, hwl]
      refine ⟨hrect2, ?_⟩
      intro y2 x2 h0 h1 h2 h3
      have hb2l : b2.length = H := hrect2.1
      have hlhs : pyIdx b2 y2 = lidx b2 y2.toNat :=
        pyIdx_nonneg h0 (by rw [hb2l]; exact_mod_cast h1)
      have hrhs : pyIdx b y2 = lidx b y2.toNat :=
        pyIdx_nonneg h0 (by rw [hHb]; exact_mod_cast h1)
      by_cases hcy : y2 = pyCanon H y
      · have hyn : y2.toNat = pyNat b.length y := by
          have e1 := pyCanon_toNat H y
          rw [hHb]
          omega
        have hlid : lidx b2 y2.toNat = some row2 := by
          rw [hb2, hyn]
          exact lidx_lset_self _ (pyNat_lt hy1b hy2b)
        have hrow2l : row2.length = row.length := by rw [hrow2, length_lset]
        by_cases hcx : x2 = pyCanon W x
        · have hxn : x2.toNat = pyNat row.length x := by
            have e1 := pyCanon_toNat W x
            rw [hwl]
            omega
          have hpy2 : pyIdx row2 x2 = lidx row2 x2.toNat :=
            pyIdx_nonneg h2 (by rw [hrow2l, hwl]; exact_mod_cast h3)
          simp only [pyGet2, hlhs, hlid, Option.some_bind]
          rw [hpy2, hrow2, hxn, lidx_lset_self _ (pyNat_lt hx1r hx2r), if_pos ⟨hcy, hcx⟩]
        · have hxn : x2.toNat ≠ pyNat row.length x := by
            have e1 := pyCanon_toNat W x
            have e2 := pyCanon_nonneg W x
            rw [hwl]
            omega
          have hpy2 : pyIdx row2 x2 = lidx row2 x2.toNat :=
            pyIdx_nonneg h2 (by rw [hrow2l, hwl]; exact_mod_cast h3)
          have hpyr : pyIdx row x2 = lidx row x2.toNat :=
            pyIdx_nonneg h2 (by rw [hwl]; exact_mod_cast h3)
          simp only [pyGet2, hlhs, hlid, Option.some_bind]
          rw [hpy2, hrow2, lidx_lset_of_ne _ (fun hh => hxn hh.symm),
            if_neg (fun hh => hcx hh.2)]
          simp only [pyGet2, hrhs]
          rw [hyn, hrowl, Option.some_bind, hpyr]
      · have hyn : y2.toNat ≠ pyNat b.length y := by
          have e1 := pyCanon_toNat H y
          have e2 := pyCanon_nonneg H y
          rw [hHb]
          omega
        have hsame : lidx b2 y2.toNat = lidx b y2.toNat := by
          rw [hb2]
          exact lidx_lset_of_ne _ (fun hh => hyn hh.symm)
        simp only [pyGet2, hlhs, hrhs, hsame]
        rw [if_neg (fun hh : y2 = pyCanon H y ∧ x2 = pyCanon W x => hcy hh.1)]

/-! ## The embedded program -/

/-- new_board(default, height, width): a grid of height rows, each row
width copies of the default state. -/
def new_board (d : α) (height width : Nat) : List (List α) :=
  List.replicate height (List.replicate width d)

/-- A player (class User): own board, own ships, knowledge board.
The constructor builds 10 x 10 boards. -/
structure User where
  board : List (List SquareState)
  ships : List Ship
  knowledge : List (List KnowledgeSquareState)
deriving DecidableEq

/-- The state User() constructs. -/
def User.init : User :=
  { board := new_board SquareState.EMPTY BOARD_HEIGHT BOARD_WIDTH
    ships := []
    knowledge := new_board KnowledgeSquareState.UNKNOWN BOARD_HEIGHT BOARD_WIDTH }

/-- square_in_board: reads width from board[0] (an IndexError — modelled as
none — when the board has no rows) and height from len(board). -/
def square_in_board (square : Vec2) (board : List (List α)) : Option Bool :=
  match board with
  | [] => none
  | row0 :: _ =>
    some (decide (0 ≤ square.x) && decide (square.x < (row0.length : Int)) &&
      (decide (0 ≤ square.y) && decide (square.y < (board.length : Int))))

/-- extend(origin, direction, length) = origin + length * direction. -/
def extend (origin direction : Vec2) (length : Int) : Vec2 :=
  vec_add origin (vec_scalar_multiply direction length)

/-- Python's all() over a generator whose elements may raise: stop at the
first False, propagate the first exception. -/
def allOpt (f : α → Option Bool) : List α → Option Bool
  | [] => some true
  | a :: as =>
    match f a with
    | none => none
    | some false => some false
    | some true => allOpt f as

/-- The board mutation loop of new_valid_ship: each square's cell is set
to SHIP in turn. -/
def set_ship_squares (b : List (List SquareState)) : List Vec2 → Option (List (List SquareState))
  | [] => some b
  | q :: qs =>
    match pySet2 b q.y q.x SquareState.SHIP with
    | none => none
    | some b2 => set_ship_squares b2 qs

/-- The squares list comprehension of new_valid_ship: extend(origin,
orientation.value, i) for i in range(length); empty when length <= 0,
as Python's range. -/
def candidate_squares (origin : Vec2) (orientation : Orientation) (length : Int) : List Vec2 :=
  (List.range length.toNat).map fun (i : Nat) => extend origin orientation.value (i : Int)

/-- new_valid_ship: compute the candidate squares, fail (returning None,
owner untouched) when one is out of bounds or overlaps an existing ship of
the owner, otherwise append the new ship and mark its cells. The outer
Option is none when the Python code would raise. -/
def new_valid_ship (origin : Vec2) (orientation : Orientation) (length : Int)
    (owner : User) : Option (Option Ship × User) :=
  let squares := candidate_squares origin orientation length
  match allOpt (fun s => square_in_board s owner.board) squares with
  | none => none
  | some false => some (none, owner)
  | some true =>
    if owner.ships.any fun ex =>
        decide (0 < (squares.filter fun s => decide (s ∈ ex.squares)).length) then
      some (none, owner)
    else
      let new_ship : Ship := { hits := 0, sunk := false, squares := squares }
      match set_ship_squares owner.board squares with
      | none => none
      | some b2 =>
        some (some new_ship, { owner with ships := owner.ships ++ [new_ship], board := b2 })

/-- The ship scan of fire_missile: find the first ship of the list holding
the coordinate, call its hit() method in place; none when no ship holds it
(the loop's else branch). -/
def fire_scan (coord : Vec2) : List Ship → Option (List Ship × Bool)
  | [] => none
  | ship :: rest =>
    if coord ∈ ship.squares then
      some ((Ship.hit ship).1 :: rest, (Ship.hit ship).2)
    else
      (fire_scan coord rest).map fun p => (ship :: p.1, p.2)

/-- fire_missile(coord, source, target): the returned triple is the result
together with the updated shooter and target; none models an uncaught
IndexError from one of the board accesses. -/
def fire_missile (coord : Vec2) (source target : User) :
    Option (FireResult × User × User) :=
  match pyGet2 source.knowledge coord.y coord.x with
  | none => none
  | some k =>
    if k ≠ KnowledgeSquareState.UNKNOWN then
      some (FireResult.FAIL, source, target)
    else
      match fire_scan coord target.ships with
      | some (ships2, sunk) =>
        match pySet2 target.board coord.y coord.x SquareState.HIT with
        | none => none
        | some tb =>
          match pySet2 source.knowledge coord.y coord.x KnowledgeSquareState.HIT with
          | none => none
          | some sk =>
            some ((if sunk then FireResult.SUNK else FireResult.HIT),
              { source with knowledge := sk },
              { target with board := tb, ships := ships2 })
      | none =>
        match pySet2 source.knowledge coord.y coord.x KnowledgeSquareState.MISS with
        | none => none
        | some sk =>
          match pySet2 target.board coord.y coord.x SquareState.MISS with
          | none => none
          | some tb =>
            some (FireResult.MISS, { source with knowledge := sk },
              { target with board := tb })

/-- Python int() applied to the one-character string text[1]: the digit's
value, or a ValueError (none) when the character is not a digit. -/
def int_of_digit_char (c : Char) : Option Nat :=
  if c.isDigit then some (c.toNat - 48) else none

/-- decode_notation(text, board). The outer Option is none when an
exception escapes (the IndexError raised by square_in_board on a rowless
board is not caught: the except clause only catches ValueError). The text
is modelled as its character list; lower() as per-character toLower. -/
def decode_notation (text : List Char) (board : List (List α)) : Option (Option Vec2) :=
  if text.length ≠ 2 then some none
  else
    let row : Int := (((text.map Char.toLower).headD ' ').toNat : Int) - 97
    match int_of_digit_char (text.getD 1 ' ') with
    | none => some none
    | some column =>
      match square_in_board ⟨(column : Int), row⟩ board with
      | none => none
      | some b => if b then some (some ⟨(column : Int), row⟩) else some none

/-! ## random_square and the AI placement loop

randint(0, n - 1) is modelled by an arbitrary draw stream reduced modulo
the bound: sample i is the pair of raw draws of iteration i, and the
sampled coordinate is (sample i).1 mod width, (sample i).2 mod height, so
every in-range coordinate randint can produce is reachable. none models
the abnormal process terminations: the exit(1) on exhausting LOOP_MAX
iterations, and the IndexError of board[0] on a rowless board. -/

def random_square_go (board : List (List α)) [DecidableEq α] (matching : α)
    (sample : Nat → Nat × Nat) (bh bw : Nat) : Nat → Nat → Option Vec2
  | _, 0 => none
  | i, fuel + 1 =>
    let c : Vec2 := ⟨(((sample i).1 % bw : Nat) : Int), (((sample i).2 % bh : Nat) : Int)⟩
    if pyGet2 board c.y c.x = some matching then some c
    else random_square_go board matching sample bh bw (i + 1) fuel

/-- random_square(board, matching): up to LOOP_MAX random draws, returning
the first drawn coordinate whose cell equals the matching state. -/
def random_square (board : List (List α)) [DecidableEq α] (matching : α)
    (sample : Nat → Nat × Nat) : Option Vec2 :=
  match board with
  | [] => none
  | row0 :: _ => random_square_go board matching sample board.length row0.length 0 LOOP_MAX

/-- One iteration of the AI placement while-loop: draw a random empty
square and a random orientation, attempt new_valid_ship. -/
def ai_place_attempt (ai : User) (sq : Nat → Nat × Nat) (orient : Orientation)
    (len : Int) : Option (Option Ship × User) :=
  match random_square ai.board SquareState.EMPTY sq with
  | none => none
  | some origin => new_valid_ship origin orient len ai

/-- State of the AI placement while-loop after a bounded number of
iterations: still looping, the process exited, or a ship was placed. -/
inductive PlaceLoopState where
  | running (u : User)
  | exited
  | placed (s : Ship) (u : User)
deriving DecidableEq

/-- The while new_ship is None loop of the AI placement phase, observed
after at most n iterations; draws supplies each iteration's random-square
draw stream and orientation choice. -/
def ai_place_loop (len : Int) (draws : Nat → (Nat → Nat × Nat) × Orientation)
    (ai : User) : Nat → PlaceLoopState
  | 0 => .running ai
  | n + 1 =>
    match ai_place_attempt ai (draws 0).1 (draws 0).2 len with
    | none => .exited
    | some (some s, ai2) => .placed s ai2
    | some (none, ai2) => ai_place_loop len (fun k => draws (k + 1)) ai2 n

/-- A sequence of new_valid_ship calls against one owner (the placement
phase); none when one of the calls raises. -/
def place_seq : List (Vec2 × Orientation × Int) → User → Option User
  | [], u => some u
  | r :: rs, u =>
    match new_valid_ship r.1 r.2.1 r.2.2 u with
    | none => none
    | some (_, u2) => place_seq rs u2

/-! ## Derived quantities and the reachable-state invariant -/

/-- Number of cells of the grid holding the state v. -/
def count_cells [DecidableEq α] (b : List (List α)) (v : α) : Nat :=
  (b.map fun row => (row.filter fun c => decide (c = v)).length).sum

/-- Number of squares of a ship whose knowledge cell is marked HIT: the
distinct own coordinates of the ship that have been hit. -/
def hitCount (k : List (List KnowledgeSquareState)) (s : Ship) : Nat :=
  (s.squares.filter fun q =>
    decide (pyGet2 k q.y q.x = some KnowledgeSquareState.HIT)).length

/-- An in-bounds coordinate of an H x W board. -/
def InB (H W : Nat) (q : Vec2) : Prop :=
  0 ≤ q.x ∧ q.x < (W : Int) ∧ 0 ≤ q.y ∧ q.y < (H : Int)

instance (H W : Nat) (q : Vec2) : Decidable (InB H W q) := by
  unfold InB; infer_instance

/-- Two ships occupying no common coordinate. -/
def ShipDisj (a b : Ship) : Prop := ∀ q, q ∈ a.squares → q ∉ b.squares

/-- The invariant tying a shooter's knowledge board to the fleet of the
player it shoots at, maintained by placements and shots. -/
structure Inv (sh ow : User) : Prop where
  rk : Rect sh.knowledge BOARD_HEIGHT BOARD_WIDTH
  rb : Rect ow.board BOARD_HEIGHT BOARD_WIDTH
  disj : ow.ships.Pairwise ShipDisj
  nodup : ∀ s ∈ ow.ships, s.squares.Nodup
  inb : ∀ s ∈ ow.ships, ∀ q ∈ s.squares, InB BOARD_HEIGHT BOARD_WIDTH q
  nonempty : ∀ s ∈ ow.ships, s.squares ≠ []
  hits_eq : ∀ s ∈ ow.ships, s.hits = hitCount sh.knowledge s
  sunk_iff : ∀ s ∈ ow.ships, (s.sunk = true ↔ s.hits = s.squares.length)
  hit_covered : ∀ q : Vec2, InB BOARD_HEIGHT BOARD_WIDTH q →
    pyGet2 sh.knowledge q.y q.x = some KnowledgeSquareState.HIT →
    ∃ s ∈ ow.ships, q ∈ s.squares

/-- Game states reachable for a pair (shooter, shot-at player): both start
as fresh users; the shot-at player places ships of positive length (the
game's fleet lengths are 5,4,3,3,2); the shooter fires missiles at it. -/
inductive Reach : User → User → Prop where
  | init : Reach User.init User.init
  | place (sh ow ow2 : User) (origin : Vec2) (dir : Orientation) (len : Int)
      (r : Option Ship) : Reach sh ow → 1 ≤ len →
      new_valid_ship origin dir len ow = some (r, ow2) → Reach sh ow2
  | fire (sh ow sh2 ow2 : User) (c : Vec2) (res : FireResult) :
      Reach sh ow → fire_missile c sh ow = some (res, sh2, ow2) → Reach sh2 ow2

/-! ## Lemmas about Ship.hit and the ship scan -/

/-- The ship Ship.hit leaves behind: counter incremented, sunk flag set
exactly when the counter reaches the number of squares. -/
def hit_result (s : Ship) : Ship :=
  ⟨s.hits + 1, if s.hits + 1 = s.squares.length then true else s.sunk, s.squares⟩

theorem Ship.hit_fst (s : Ship) : (Ship.hit s).1 = hit_result s := by
  by_cases h : s.hits + 1 = s.squares.length <;>
    simp [Ship.hit, hit_result, h]

theorem Ship.hit_snd (s : Ship) :
    ((Ship.hit s).2 = true ↔ s.hits + 1 = s.squares.length) := by
  by_cases h : s.hits + 1 = s.squares.length <;>
    simp [Ship.hit, h]

theorem fire_scan_none {c : Vec2} {ships : List Ship} :
    fire_scan c ships = none ↔ ∀ s ∈ ships, c ∉ s.squares := by
  induction ships with
  | nil => simp [fire_scan]
  | cons ship rest ih =>
    by_cases hc : c ∈ ship.squares
    · simp [fire_scan, hc]
    · simp [fire_scan, hc, ih]

theorem fire_scan_found {c : Vec2} (pre : List Ship) {s : Ship} (post : List Ship)
    (hpre : ∀ t ∈ pre, c ∉ t.squares) (hs : c ∈ s.squares) :
    fire_scan c (pre ++ s :: post) =
      some (pre ++ (Ship.hit s).1 :: post, (Ship.hit s).2) := by
  induction pre with
  | nil => simp [fire_scan, hs]
  | cons t rest ih =>
    have ht : c ∉ t.squares := hpre t (by simp)
    have := ih fun t2 h2 => hpre t2 (by simp [h2])
    simp [fire_scan, ht, this]

theorem fire_scan_some {c : Vec2} {ships l : List Ship} {bo : Bool}
    (h : fire_scan c ships = some (l, bo)) :
    ∃ pre s post, ships = pre ++ s :: post ∧ (∀ t ∈ pre, c ∉ t.squares) ∧
      c ∈ s.squares ∧ l = pre ++ (Ship.hit s).1 :: post ∧ bo = (Ship.hit s).2 := by
  induction ships generalizing l with
  | nil => simp [fire_scan] at h
  | cons ship rest ih =>
    by_cases hc : c ∈ ship.squares
    · simp only [fire_scan, if_pos hc, Option.some.injEq, Prod.mk.injEq] at h
      obtain ⟨h1, h2⟩ := h
      exact ⟨[], ship, rest, rfl, by simp, hc, h1.symm, h2.symm⟩
    · simp only [fire_scan, if_neg hc] at h
      rcases hmap : fire_scan c rest with _ | ⟨l2, b2⟩
      · rw [hmap] at h; simp at h
      · rw [hmap] at h
        simp only [Option.map_some', Option.some.injEq, Prod.mk.injEq] at h
        obtain ⟨h1, h2⟩ := h
        obtain ⟨pre, s, post, e1, e2, e3, e4, e5⟩ := ih (l := l2) (by rw [hmap, h2])
        refine ⟨ship :: pre, s, post, by rw [e1]; rfl, ?_, e3,
          by rw [← h1, e4, List.cons_append], e5⟩
        intro t htm
        rcases List.mem_cons.mp htm with hh | hh
        · rw [hh]; exact hc
        · exact e2 t hh

/-! ## Evaluation lemmas for the branches of fire_missile -/

theorem fire_missile_eq_fail {coord : Vec2} {source target : User}
    {k : KnowledgeSquareState}
    (hk : pyGet2 source.knowledge coord.y coord.x = some k)
    (hne : k ≠ KnowledgeSquareState.UNKNOWN) :
    fire_missile coord source target = some (FireResult.FAIL, source, target) := by
  simp only [fire_missile, hk]
  rw [if_pos hne]

theorem fire_missile_eq_miss {coord : Vec2} {source target : User}
    {sk : List (List KnowledgeSquareState)} {tb : List (List SquareState)}
    (hk : pyGet2 source.knowledge coord.y coord.x = some KnowledgeSquareState.UNKNOWN)
    (hscan : fire_scan coord target.ships = none)
    (hsk : pySet2 source.knowledge coord.y coord.x KnowledgeSquareState.MISS = some sk)
    (htb : pySet2 target.board coord.y coord.x SquareState.MISS = some tb) :
    fire_missile coord source target =
      some (FireResult.MISS, { source with knowledge := sk },
        { target with board := tb }) := by
  simp only [fire_missile, hk, hscan, hsk, htb, ne_eq, not_true_eq_false, if_false]

theorem fire_missile_eq_hit {coord : Vec2} {source target : User}
    {ships2 : List Ship} {sunk : Bool}
    {sk : List (List KnowledgeSquareState)} {tb : List (List SquareState)}
    (hk : pyGet2 source.knowledge coord.y coord.x = some KnowledgeSquareState.UNKNOWN)
    (hscan : fire_scan coord target.ships = some (ships2, sunk))
    (htb : pySet2 target.board coord.y coord.x SquareState.HIT = some tb)
    (hsk : pySet2 source.knowledge coord.y coord.x KnowledgeSquareState.HIT = some sk) :
    fire_missile coord source target =
      some ((if sunk then FireResult.SUNK else FireResult.HIT),
        { source with knowledge := sk },
        { target with board := tb, ships := ships2 }) := by
  simp only [fire_missile, hk, hscan, hsk, htb, ne_eq, not_true_eq_false, if_false]

/-- C2: firing at an in-bounds coordinate whose knowledge cell is no
longer unknown returns FAIL (AlreadyFired) and leaves both users — boards
and ships — exactly as they were. -/
theorem fire_missile_already_fired {H W : Nat} (coord : Vec2) (source target : User)
    (hrk : Rect source.knowledge H W)
    (hx0 : 0 ≤ coord.x) (hx1 : coord.x < (W : Int))
    (hy0 : 0 ≤ coord.y) (hy1 : coord.y < (H : Int))
    (hne : pyGet2 source.knowledge coord.y coord.x ≠ some KnowledgeSquareState.UNKNOWN) :
    fire_missile coord source target = some (FireResult.FAIL, source, target) := by
  obtain ⟨k, hk⟩ := pyGet2_some_of_rect hrk (by omega) hy1 (by omega) hx1
  exact fire_missile_eq_fail hk fun hh => hne (hh ▸ hk)

/-- C10: fire_missile performs no bounds check of its own, but under the
in-bounds precondition its callers establish, every board access succeeds:
the run never reaches the error (none) branch. -/
theorem fire_missile_total {H W : Nat} (coord : Vec2) (source target : User)
    (hrk : Rect source.knowledge H W) (hrb : Rect target.board H W)
    (hx0 : 0 ≤ coord.x) (hx1 : coord.x < (W : Int))
    (hy0 : 0 ≤ coord.y) (hy1 : coord.y < (H : Int)) :
    ∃ r, fire_missile coord source target = some r := by
  obtain ⟨k, hk⟩ := pyGet2_some_of_rect hrk (by omega) hy1 (by omega) hx1
  by_cases hku : k = KnowledgeSquareState.UNKNOWN
  · subst hku
    cases hscan : fire_scan coord target.ships with
    | none =>
      obtain ⟨sk, hsk⟩ := pySet2_some_of_rect hrk KnowledgeSquareState.MISS
        (by omega) hy1 (by omega) hx1
      obtain ⟨tb, htb⟩ := pySet2_some_of_rect hrb SquareState.MISS
        (by omega) hy1 (by omega) hx1
      exact ⟨_, fire_missile_eq_miss hk hscan hsk htb⟩
    | some p =>
      obtain ⟨tb, htb⟩ := pySet2_some_of_rect hrb SquareState.HIT
        (by omega) hy1 (by omega) hx1
      obtain ⟨sk, hsk⟩ := pySet2_some_of_rect hrk KnowledgeSquareState.HIT
        (by omega) hy1 (by omega) hx1
      exact ⟨_, fire_missile_eq_hit hk (by rw [hscan]) htb hsk⟩
  · exact ⟨_, fire_missile_eq_fail hk hku⟩

/-- C1: at an in-bounds coordinate whose knowledge cell is unknown — if no
ship of the target holds the coordinate, both boards are marked miss and
the result is MISS; if some ship holds it (the first such in the list),
its hit counter is incremented, both boards are marked hit, and the result
is SUNK exactly when the incremented count equals the ship's length,
HIT otherwise. -/
theorem fire_missile_resolution {H W : Nat} (coord : Vec2) (source target : User)
    (hrk : Rect source.knowledge H W) (hrb : Rect target.board H W)
    (hx0 : 0 ≤ coord.x) (hx1 : coord.x < (W : Int))
    (hy0 : 0 ≤ coord.y) (hy1 : coord.y < (H : Int))
    (hk : pyGet2 source.knowledge coord.y coord.x = some KnowledgeSquareState.UNKNOWN) :
    ((∀ s ∈ target.ships, coord ∉ s.squares) →
      ∃ sk tb,
        pySet2 source.knowledge coord.y coord.x KnowledgeSquareState.MISS = some sk ∧
        pySet2 target.board coord.y coord.x SquareState.MISS = some tb ∧
        fire_missile coord source target =
          some (FireResult.MISS, { source with knowledge := sk },
            { target with board := tb }) ∧
        pyGet2 sk coord.y coord.x = some KnowledgeSquareState.MISS ∧
        pyGet2 tb coord.y coord.x = some SquareState.MISS) ∧
    (∀ pre s post, target.ships = pre ++ s :: post →
      (∀ t ∈ pre, coord ∉ t.squares) → coord ∈ s.squares →
      ∃ sk tb,
        pySet2 source.knowledge coord.y coord.x KnowledgeSquareState.HIT = some sk ∧
        pySet2 target.board coord.y coord.x SquareState.HIT = some tb ∧
        fire_missile coord source target =
          some ((if s.hits + 1 = s.squares.length then FireResult.SUNK else FireResult.HIT),
            { source with knowledge := sk },
            { target with board := tb, ships := pre ++ hit_result s :: post }) ∧
        pyGet2 sk coord.y coord.x = some KnowledgeSquareState.HIT ∧
        pyGet2 tb coord.y coord.x = some SquareState.HIT) := by
  have hcy : pyCanon H coord.y = coord.y := pyCanon_of_nonneg hy0 hy1
  have hcx : pyCanon W coord.x = coord.x := pyCanon_of_nonneg hx0 hx1
  constructor
  · intro hmiss
    obtain ⟨sk, hsk⟩ := pySet2_some_of_rect hrk KnowledgeSquareState.MISS
      (by omega) hy1 (by omega) hx1
    obtain ⟨tb, htb⟩ := pySet2_some_of_rect hrb SquareState.MISS
      (by omega) hy1 (by omega) hx1
    refine ⟨sk, tb, hsk, htb,
      fire_missile_eq_miss hk (fire_scan_none.mpr hmiss) hsk htb, ?_, ?_⟩
    · have := (pySet2_spec hrk hsk).2 coord.y coord.x hy0 hy1 hx0 hx1
      rw [this, hcy, hcx, if_pos ⟨rfl, rfl⟩]
    · have := (pySet2_spec hrb htb).2 coord.y coord.x hy0 hy1 hx0 hx1
      rw [this, hcy, hcx, if_pos ⟨rfl, rfl⟩]
  · intro pre s post hships hpre hs
    obtain ⟨sk, hsk⟩ := pySet2_some_of_rect hrk KnowledgeSquareState.HIT
      (by omega) hy1 (by omega) hx1
    obtain ⟨tb, htb⟩ := pySet2_some_of_rect hrb SquareState.HIT
      (by omega) hy1 (by omega) hx1
    have hscan : fire_scan coord target.ships =
        some (pre ++ (Ship.hit s).1 :: post, (Ship.hit s).2) := by
      rw [hships]
      exact fire_scan_found pre post hpre hs
    have heq := fire_missile_eq_hit hk hscan htb hsk
    rw [Ship.hit_fst] at heq
    have hres : ((Ship.hit s).2 = true) ↔ s.hits + 1 = s.squares.length := Ship.hit_snd s
    refine ⟨sk, tb, hsk, htb, ?_, ?_, ?_⟩
    · rw [heq]
      by_cases hsunk : s.hits + 1 = s.squares.length
      · rw [if_pos (hres.mpr hsunk), if_pos hsunk]
      · rw [if_neg fun hh => hsunk (hres.mp hh), if_neg hsunk]
    · have := (pySet2_spec hrk hsk).2 coord.y coord.x hy0 hy1 hx0 hx1
      rw [this, hcy, hcx, if_pos ⟨rfl, rfl⟩]
    · have := (pySet2_spec hrb htb).2 coord.y coord.x hy0 hy1 hx0 hx1
      rw [this, hcy, hcx, if_pos ⟨rfl, rfl⟩]

/-- C8: an effective shot (result not FAIL) changes exactly the one cell at
coord on each of the two involved boards, changes at most one ship of the
target (hit counter and sunk flag only), and leaves the shooter's own
board, the shooter's ships, the target's knowledge board and every other
cell untouched. -/
theorem fire_missile_frame {H W : Nat} (coord : Vec2) (source target : User)
    (res : FireResult) (source2 target2 : User)
    (hrk : Rect source.knowledge H W) (hrb : Rect target.board H W)
    (hx0 : 0 ≤ coord.x) (hx1 : coord.x < (W : Int))
    (hy0 : 0 ≤ coord.y) (hy1 : coord.y < (H : Int))
    (h : fire_missile coord source target = some (res, source2, target2))
    (hres : res ≠ FireResult.FAIL) :
    source2.board = source.board ∧ source2.ships = source.ships ∧
    target2.knowledge = target.knowledge ∧
    (∀ y x : Int, 0 ≤ y → y < (H : Int) → 0 ≤ x → x < (W : Int) →
      ¬(y = coord.y ∧ x = coord.x) →
      pyGet2 target2.board y x = pyGet2 target.board y x ∧
      pyGet2 source2.knowledge y x = pyGet2 source.knowledge y x) ∧
    ((pyGet2 target2.board coord.y coord.x = some SquareState.MISS ∧
      pyGet2 source2.knowledge coord.y coord.x = some KnowledgeSquareState.MISS ∧
      target2.ships = target.ships) ∨
     (pyGet2 target2.board coord.y coord.x = some SquareState.HIT ∧
      pyGet2 source2.knowledge coord.y coord.x = some KnowledgeSquareState.HIT ∧
      ∃ pre s post, target.ships = pre ++ s :: post ∧
        target2.ships = pre ++ hit_result s :: post)) := by
  have hcy : pyCanon H coord.y = coord.y := pyCanon_of_nonneg hy0 hy1
  have hcx : pyCanon W coord.x = coord.x := pyCanon_of_nonneg hx0 hx1
  obtain ⟨k, hk⟩ := pyGet2_some_of_rect hrk (by omega) hy1 (by omega) hx1
  by_cases hku : k = KnowledgeSquareState.UNKNOWN
  · subst hku
    cases hscan : fire_scan coord target.ships with
    | none =>
      obtain ⟨sk, hsk⟩ := pySet2_some_of_rect hrk KnowledgeSquareState.MISS
        (by omega) hy1 (by omega) hx1
      obtain ⟨tb, htb⟩ := pySet2_some_of_rect hrb SquareState.MISS
        (by omega) hy1 (by omega) hx1
      have heq := fire_missile_eq_miss hk hscan hsk htb
      rw [heq] at h
      obtain ⟨e1, e2, e3⟩ : res = FireResult.MISS ∧
          source2 = { source with knowledge := sk } ∧
          target2 = { target with board := tb } := by
        simpa using h.symm
      subst e2; subst e3
      refine ⟨rfl, rfl, rfl, ?_, Or.inl ⟨?_, ?_, rfl⟩⟩
      · intro y x hb0 hb1 hb2 hb3 hne
        constructor
        · have := (pySet2_spec hrb htb).2 y x hb0 hb1 hb2 hb3
          rw [this, hcy, hcx, if_neg hne]
        · have := (pySet2_spec hrk hsk).2 y x hb0 hb1 hb2 hb3
          rw [this, hcy, hcx, if_neg hne]
      · have := (pySet2_spec hrb htb).2 coord.y coord.x hy0 hy1 hx0 hx1
        rw [this, hcy, hcx, if_pos ⟨rfl, rfl⟩]
      · have := (pySet2_spec hrk hsk).2 coord.y coord.x hy0 hy1 hx0 hx1
        rw [this, hcy, hcx, if_pos ⟨rfl, rfl⟩]
    | some p =>
      obtain ⟨tb, htb⟩ := pySet2_some_of_rect hrb SquareState.HIT
        (by omega) hy1 (by omega) hx1
      obtain ⟨sk, hsk⟩ := pySet2_some_of_rect hrk KnowledgeSquareState.HIT
        (by omega) hy1 (by omega) hx1
      have heq := fire_missile_eq_hit hk (by rw [hscan]) htb hsk
      rw [heq] at h
      obtain ⟨e1, e2, e3⟩ : (if p.2 then FireResult.SUNK else FireResult.HIT) = res ∧
          source2 = { source with knowledge := sk } ∧
          target2 = { target with board := tb, ships := p.1 } := by
        have hh := Option.some.inj h
        exact ⟨congrArg Prod.fst hh, (congrArg (fun z => z.2.1) hh).symm,
          (congrArg (fun z => z.2.2) hh).symm⟩
      subst e2; subst e3
      obtain ⟨pre, s, post, hd1, hd2, hd3, hd4, hd5⟩ := fire_scan_some (c := coord)
        (by rw [hscan])
      refine ⟨rfl, rfl, rfl, ?_, Or.inr ⟨?_, ?_, pre, s, post, hd1, ?_⟩⟩
      · intro y x hb0 hb1 hb2 hb3 hne
        constructor
        · have := (pySet2_spec hrb htb).2 y x hb0 hb1 hb2 hb3
          rw [this, hcy, hcx, if_neg hne]
        · have := (pySet2_spec hrk hsk).2 y x hb0 hb1 hb2 hb3
          rw [this, hcy, hcx, if_neg hne]
      · have := (pySet2_spec hrb htb).2 coord.y coord.x hy0 hy1 hx0 hx1
        rw [this, hcy, hcx, if_pos ⟨rfl, rfl⟩]
      · have := (pySet2_spec hrk hsk).2 coord.y coord.x hy0 hy1 hx0 hx1
        rw [this, hcy, hcx, if_pos ⟨rfl, rfl⟩]
      · show p.1 = pre ++ hit_result s :: post
        rw [hd4, Ship.hit_fst]
  · rw [fire_missile_eq_fail hk hku] at h
    have : res = FireResult.FAIL := by simpa using (congrArg (fun z => (Option.map Prod.fst z)) h).symm
    exact absurd this hres

/-! ## Lemmas about placement -/

theorem square_in_board_rect {b : List (List α)} {H W : Nat} (hr : Rect b H W)
    (hH : 0 < H) (q : Vec2) : square_in_board q b = some (decide (InB H W q)) := by
  cases b with
  | nil =>
    exfalso
    have := hr.1
    simp at this
    omega
  | cons row0 rest =>
    have hw : row0.length = W := hr.2 row0 (by simp)
    have hh : (row0 :: rest).length = H := hr.1
    simp only [square_in_board, hw, hh]
    by_cases h1 : 0 ≤ q.x <;> by_cases h2 : q.x < (W : Int) <;>
      by_cases h3 : 0 ≤ q.y <;> by_cases h4 : q.y < (H : Int) <;>
      simp [InB, h1, h2, h3, h4]

theorem allOpt_eq_all {f : α → Option Bool} {g : α → Bool} :
    ∀ {l : List α}, (∀ a ∈ l, f a = some (g a)) → allOpt f l = some (l.all g) := by
  intro l
  induction l with
  | nil => intro _; simp [allOpt]
  | cons a as ih =>
    intro h
    have ha := h a (by simp)
    rw [allOpt, ha]
    cases hg : g a with
    | false => simp [hg]
    | true =>
      have := ih fun b hb => h b (by simp [hb])
      simp [this, hg]

theorem ships_any_overlap_iff {squares : List Vec2} {ships : List Ship} :
    ((ships.any fun ex =>
        decide (0 < (squares.filter fun s2 => decide (s2 ∈ ex.squares)).length)) = true)
      ↔ ∃ ex ∈ ships, ∃ q ∈ squares, q ∈ ex.squares := by
  rw [List.any_eq_true]
  constructor
  · rintro ⟨ex, hex, hpos⟩
    rw [decide_eq_true_eq] at hpos
    obtain ⟨q, hq⟩ := List.exists_mem_of_length_pos hpos
    have := List.mem_filter.mp hq
    exact ⟨ex, hex, q, this.1, by simpa using this.2⟩
  · rintro ⟨ex, hex, q, hq1, hq2⟩
    refine ⟨ex, hex, ?_⟩
    rw [decide_eq_true_eq, List.length_pos]
    intro hnil
    have : q ∈ ([] : List Vec2) := hnil ▸ List.mem_filter.mpr ⟨hq1, by simpa using hq2⟩
    simp at this

theorem set_ship_squares_spec {H W : Nat} :
    ∀ (sqs : List Vec2) (b : List (List SquareState)), Rect b H W →
    (∀ q ∈ sqs, InB H W q) →
    ∃ b2, set_ship_squares b sqs = some b2 ∧ Rect b2 H W ∧
      ∀ y x : Int, 0 ≤ y → y < (H : Int) → 0 ≤ x → x < (W : Int) →
        pyGet2 b2 y x =
          if (⟨x, y⟩ : Vec2) ∈ sqs then some SquareState.SHIP else pyGet2 b y x := by
  intro sqs
  induction sqs with
  | nil =>
    intro b hr _
    exact ⟨b, rfl, hr, fun y x _ _ _ _ => by simp⟩
  | cons q qs ih =>
    intro b hr hin
    have hq : InB H W q := hin q (by simp)
    obtain ⟨hq1, hq2, hq3, hq4⟩ := hq
    obtain ⟨b1, hb1⟩ := pySet2_some_of_rect hr SquareState.SHIP (by omega) hq4 (by omega) hq2
    obtain ⟨hr1, hchar⟩ := pySet2_spec hr hb1
    obtain ⟨b2, hset, hr2, hcells⟩ := ih b1 hr1 fun q2 h2 => hin q2 (by simp [h2])
    refine ⟨b2, ?_, hr2, ?_⟩
    · rw [set_ship_squares, hb1]
      exact hset
    · intro y x h0 h1 h2 h3
      rw [hcells y x h0 h1 h2 h3, hchar y x h0 h1 h2 h3,
        pyCanon_of_nonneg hq3 hq4, pyCanon_of_nonneg hq1 hq2]
      by_cases hmq : (⟨x, y⟩ : Vec2) ∈ qs
      · rw [if_pos hmq, if_pos (by simp [hmq])]
      · rw [if_neg hmq]
        by_cases heq : (⟨x, y⟩ : Vec2) = q
        · have : y = q.y ∧ x = q.x := by
            constructor <;> rw [← heq]
          rw [if_pos this, if_pos (by simp [heq])]
        · have : ¬(y = q.y ∧ x = q.x) := by
            intro hh
            exact heq (by cases q; simp_all)
          rw [if_neg this, if_neg (by simp [heq, hmq])]

/-- Branch analysis of new_valid_ship over a rectangular board: the exact
failure condition, and on success the identity of the returned user, with
the board produced by set_ship_squares. -/
theorem new_valid_ship_cases {H W : Nat} (origin : Vec2) (orientation : Orientation)
    (length : Int) (owner : User) (hr : Rect owner.board H W) (hH : 0 < H) :
    ((¬ (∀ q ∈ candidate_squares origin orientation length, InB H W q) ∨
      ∃ ex ∈ owner.ships, ∃ q ∈ candidate_squares origin orientation length, q ∈ ex.squares) →
      new_valid_ship origin orientation length owner = some (none, owner)) ∧
    ((∀ q ∈ candidate_squares origin orientation length, InB H W q) →
      (∀ ex ∈ owner.ships, ∀ q ∈ candidate_squares origin orientation length, q ∉ ex.squares) →
      ∃ b2, set_ship_squares owner.board (candidate_squares origin orientation length) = some b2 ∧
        new_valid_ship origin orientation length owner =
          some (some ⟨0, false, candidate_squares origin orientation length⟩,
            { owner with
              ships := owner.ships ++ [⟨0, false, candidate_squares origin orientation length⟩],
              board := b2 })) := by
  have hall : allOpt (fun s => square_in_board s owner.board)
      (candidate_squares origin orientation length) =
      some ((candidate_squares origin orientation length).all fun q => decide (InB H W q)) :=
    allOpt_eq_all fun a _ => square_in_board_rect hr hH a
  constructor
  · intro hcond
    by_cases hin : ∀ q ∈ candidate_squares origin orientation length, InB H W q
    · have hov : ∃ ex ∈ owner.ships,
          ∃ q ∈ candidate_squares origin orientation length, q ∈ ex.squares := by
        rcases hcond with hc | hc
        · exact absurd hin hc
        · exact hc
      have htrue : (candidate_squares origin orientation length).all
          (fun q => decide (InB H W q)) = true := by
        rw [List.all_eq_true]
        intro q hq
        exact decide_eq_true (hin q hq)
      simp only [new_valid_ship, hall, htrue]
      rw [if_pos (ships_any_overlap_iff.mpr hov)]
    · have hfalse : (candidate_squares origin orientation length).all
          (fun q => decide (InB H W q)) = false := by
        rw [List.all_eq_false]
        push_neg at hin
        obtain ⟨q, hq1, hq2⟩ := hin
        exact ⟨q, hq1, by simpa using hq2⟩
      simp only [new_valid_ship, hall, hfalse]
  · intro hin hov
    have htrue : (candidate_squares origin orientation length).all
        (fun q => decide (InB H W q)) = true := by
      rw [List.all_eq_true]
      intro q hq
      exact decide_eq_true (hin q hq)
    obtain ⟨b2, hset, hr2, hcells⟩ :=
      set_ship_squares_spec (candidate_squares origin orientation length) owner.board hr hin
    refine ⟨b2, hset, ?_⟩
    have hany : ¬ ((owner.ships.any fun ex =>
        decide (0 < ((candidate_squares origin orientation length).filter
          fun s2 => decide (s2 ∈ ex.squares)).length)) = true) := by
      rw [ships_any_overlap_iff]
      rintro ⟨ex, hex, q, hq1, hq2⟩
      exact hov ex hex q hq1 hq2
    simp only [new_valid_ship, hall, htrue]
    rw [if_neg hany, hset]

/-- C3: new_valid_ship fails — returning "no ship", owner untouched —
exactly when a candidate square origin + i * direction is out of the
owner's board bounds or already belongs to one of the owner's ships;
otherwise it appends a fresh ship owning exactly the candidate squares and
marks each of their cells on the owner's board SHIP. -/
theorem new_valid_ship_spec {H W : Nat} (origin : Vec2) (orientation : Orientation)
    (length : Int) (owner : User) (hr : Rect owner.board H W) (hH : 0 < H) :
    ((¬ (∀ q ∈ candidate_squares origin orientation length, InB H W q) ∨
      ∃ ex ∈ owner.ships, ∃ q ∈ candidate_squares origin orientation length, q ∈ ex.squares) →
      new_valid_ship origin orientation length owner = some (none, owner)) ∧
    ((∀ q ∈ candidate_squares origin orientation length, InB H W q) →
      (∀ ex ∈ owner.ships, ∀ q ∈ candidate_squares origin orientation length, q ∉ ex.squares) →
      ∃ b2, new_valid_ship origin orientation length owner =
          some (some ⟨0, false, candidate_squares origin orientation length⟩,
            { owner with
              ships := owner.ships ++ [⟨0, false, candidate_squares origin orientation length⟩],
              board := b2 }) ∧
        (∀ q ∈ candidate_squares origin orientation length,
          pyGet2 b2 q.y q.x = some SquareState.SHIP)) := by
  obtain ⟨hfail, hsucc⟩ := new_valid_ship_cases origin orientation length owner hr hH
  refine ⟨hfail, ?_⟩
  intro hin hov
  obtain ⟨b2, hset, heq⟩ := hsucc hin hov
  obtain ⟨b2x, hsetx, hr2, hcells⟩ :=
    set_ship_squares_spec (candidate_squares origin orientation length) owner.board hr hin
  have hbb : b2x = b2 := by
    rw [hset] at hsetx
    exact (Option.some.inj hsetx).symm
  subst hbb
  refine ⟨b2x, heq, ?_⟩
  intro q hq
  obtain ⟨h1, h2, h3, h4⟩ := hin q hq
  rw [hcells q.y q.x h3 h4 h1 h2, if_pos (by simpa using hq)]

/-! ## decode_notation -/

theorem square_in_board_isSome {board : List (List α)} (hb : 0 < board.length)
    (q : Vec2) : ∃ bv, square_in_board q board = some bv := by
  cases board with
  | nil => simp at hb
  | cons row0 rest => exact ⟨_, rfl⟩

/-- C9 (amended to boards with at least one row, the shape of every board
the program builds): decode_notation never raises; it returns None when
the text is not exactly two characters, when the second character is not a
digit, or when the decoded coordinate is out of the board's bounds, and
otherwise the coordinate whose row is the lowercased first character's
alphabetic index and whose column is the second character's digit value. -/
theorem decode_notation_spec (text : List Char) (board : List (List α))
    (hb : 0 < board.length) :
    (∃ r, decode_notation text board = some r) ∧
    (text.length ≠ 2 → decode_notation text board = some none) ∧
    (∀ c0 c1 : Char, text = [c0, c1] →
      (¬ c1.isDigit → decode_notation text board = some none) ∧
      (c1.isDigit →
        (square_in_board ⟨((c1.toNat - 48 : Nat) : Int), (c0.toLower.toNat : Int) - 97⟩ board
            = some false →
          decode_notation text board = some none) ∧
        (square_in_board ⟨((c1.toNat - 48 : Nat) : Int), (c0.toLower.toNat : Int) - 97⟩ board
            = some true →
          decode_notation text board =
            some (some ⟨((c1.toNat - 48 : Nat) : Int), (c0.toLower.toNat : Int) - 97⟩)))) := by
  by_cases hlen : text.length = 2
  · obtain ⟨c0, c1, htext⟩ : ∃ c0 c1, text = [c0, c1] := by
      match text, hlen with
      | [c0, c1], _ => exact ⟨c0, c1, rfl⟩
    subst htext
    constructor
    · by_cases hd : c1.isDigit
      · obtain ⟨bv, hbv⟩ := square_in_board_isSome hb
          ⟨((c1.toNat - 48 : Nat) : Int), (c0.toLower.toNat : Int) - 97⟩
        cases bv
        · refine ⟨none, ?_⟩
          simp [ decode_notation, int_of_digit_char, hd, hbv]
        · refine ⟨some ⟨((c1.toNat - 48 : Nat) : Int), (c0.toLower.toNat : Int) - 97⟩, ?_⟩
          simp [ decode_notation, int_of_digit_char, hd, hbv]
      · refine ⟨none, ?_⟩
        simp [ decode_notation, int_of_digit_char, hd]
    constructor
    · intro h
      simp at h
    · intro c0' c1' heq
      have h01 : c0 = c0' ∧ c1 = c1' := by simpa using heq
      obtain ⟨e0, e1⟩ := h01
      subst e0; subst e1
      constructor
      · intro hd
        simp [ decode_notation, int_of_digit_char, hd]
      · intro hd
        constructor
        · intro hbv
          simp [ decode_notation, int_of_digit_char, hd, hbv]
        · intro hbv
          simp [ decode_notation, int_of_digit_char, hd, hbv]
  · refine ⟨⟨none, ?_⟩, fun _ => ?_, ?_⟩
    · simp [ decode_notation, hlen]
    · simp [ decode_notation, hlen]
    · intro c0 c1 heq
      exact absurd (show text.length = 2 by rw [heq]; rfl) hlen

/-! ## random_square and the placement loop -/

theorem random_square_go_correct {board : List (List α)} [DecidableEq α]
    {matching : α} {sample : Nat → Nat × Nat} {bh bw : Nat} :
    ∀ {fuel i : Nat} {c : Vec2},
      random_square_go board matching sample bh bw i fuel = some c →
      pyGet2 board c.y c.x = some matching := by
  intro fuel
  induction fuel with
  | zero => intro i c h; simp [random_square_go] at h
  | succ fuel ih =>
    intro i c h
    rw [random_square_go] at h
    split at h
    · rename_i hcell
      cases h
      exact hcell
    · exact ih h

theorem random_square_go_congr {board : List (List α)} [DecidableEq α]
    {matching : α} {sample sample2 : Nat → Nat × Nat} {bh bw : Nat} :
    ∀ (fuel i : Nat), (∀ j, i ≤ j → j < i + fuel → sample j = sample2 j) →
      random_square_go board matching sample bh bw i fuel =
      random_square_go board matching sample2 bh bw i fuel := by
  intro fuel
  induction fuel with
  | zero => intro i _; rfl
  | succ fuel ih =>
    intro i hagree
    have h0 : sample i = sample2 i := hagree i (le_refl i) (by omega)
    rw [random_square_go, random_square_go, h0]
    split
    · rfl
    · exact ih (i + 1) fun j hj1 hj2 => hagree j (by omega) (by omega)

/-- The adversarial draw stream for the placement loop: every random
square draw lands on (0, 0) and every orientation choice is north. -/
def stuck_draws : Nat → (Nat → Nat × Nat) × Orientation :=
  fun _ => (fun _ => (0, 0), Orientation.N)

theorem ai_place_attempt_stuck :
    ai_place_attempt User.init (stuck_draws 0).1 (stuck_draws 0).2 5 =
      some (none, User.init) := by decide

theorem ai_place_loop_stuck :
    ∀ n, ai_place_loop 5 stuck_draws User.init n = PlaceLoopState.running User.init := by
  intro n
  induction n with
  | zero => rfl
  | succ n ih =>
    simp only [ai_place_loop, ai_place_attempt_stuck]
    exact ih

/-- C5 counterexample: on a fresh 10 x 10 board, a draw stream that keeps
proposing origin (0, 0) with orientation north makes every new_valid_ship
attempt fail, and after LOOP_MAX + 1 iterations — beyond the claimed
ceiling — the placement loop is still running, with no ship placed and no
process exit: the placement retry is not bounded by the ceiling. -/
theorem ai_place_loop_cex :
    ai_place_loop 5 stuck_draws User.init (LOOP_MAX + 1) =
      PlaceLoopState.running User.init :=
  ai_place_loop_stuck (LOOP_MAX + 1)

/-- C5 (amended): the ceiling bounds only random_square's rejection
sampling — a returned coordinate's cell holds the matching state, only the
first LOOP_MAX draws can influence the outcome, and exhaustion is the
process-terminating none — while the outer placement while-loop of the
automated fleet generation has no ceiling of its own and can run forever
(witnessed by the stuck_draws stream, which keeps it in the running state
for every iteration count). -/
theorem random_square_bounded [DecidableEq α] (board : List (List α)) (matching : α)
    (sample : Nat → Nat × Nat) :
    (∀ c, random_square board matching sample = some c →
      pyGet2 board c.y c.x = some matching) ∧
    (∀ sample2 : Nat → Nat × Nat, (∀ i, i < LOOP_MAX → sample i = sample2 i) →
      random_square board matching sample = random_square board matching sample2) ∧
    (∀ n, ai_place_loop 5 stuck_draws User.init n = PlaceLoopState.running User.init) := by
  refine ⟨?_, ?_, ai_place_loop_stuck⟩
  · intro c h
    cases board with
    | nil => simp [random_square] at h
    | cons row0 rest => exact random_square_go_correct h
  · intro sample2 hagree
    cases board with
    | nil => rfl
    | cons row0 rest =>
      simp only [random_square]
      exact random_square_go_congr LOOP_MAX 0 fun j hj1 hj2 => hagree j (by omega)

/-! ## Counting and fleet lemmas -/

theorem length_filter_flip {l : List α} {a : α} {p p2 : α → Bool}
    (hnd : l.Nodup) (ha : a ∈ l) (hothers : ∀ b ∈ l, b ≠ a → p2 b = p b)
    (hpa : p a = false) (hpa2 : p2 a = true) :
    (l.filter p2).length = (l.filter p).length + 1 := by
  induction l with
  | nil => simp at ha
  | cons h t ih =>
    rcases List.mem_cons.mp ha with rfl | hh
    · have hnot : a ∉ t := (List.nodup_cons.mp hnd).1
      have hcong : t.filter p2 = t.filter p :=
        List.filter_congr fun b hb => hothers b (by simp [hb]) fun he => hnot (he ▸ hb)
      rw [List.filter_cons, List.filter_cons, hpa2, hpa]
      simp [hcong]
    · have hha : h ≠ a := fun he => ((List.nodup_cons.mp hnd).1 (he ▸ hh))
      have hph : p2 h = p h := hothers h (by simp) hha
      have := ih (List.nodup_cons.mp hnd).2 hh fun b hb hne => hothers b (by simp [hb]) hne
      rw [List.filter_cons, List.filter_cons, hph]
      cases p h <;> simp [this]

theorem length_filter_lt {l : List α} {a : α} {p : α → Bool}
    (ha : a ∈ l) (hpa : p a = false) : (l.filter p).length < l.length := by
  refine Nat.lt_of_le_of_ne (List.length_filter_le p l) fun heq => ?_
  have := List.filter_length_eq_length.mp heq a ha
  rw [hpa] at this
  exact Bool.false_ne_true this

theorem extend_injective (origin : Vec2) (o : Orientation) :
    Function.Injective fun i : Nat => extend origin o.value (i : Int) := by
  intro i j h
  cases o <;>
    simp only [extend, vec_add, vec_scalar_multiply, Orientation.value, Vec2.mk.injEq] at h <;>
    omega

theorem candidate_squares_nodup (origin : Vec2) (o : Orientation) (length : Int) :
    (candidate_squares origin o length).Nodup := by
  unfold candidate_squares
  exact List.Nodup.map (extend_injective origin o) (List.nodup_range _)

theorem candidate_squares_length (origin : Vec2) (o : Orientation) (length : Int) :
    (candidate_squares origin o length).length = length.toNat := by
  unfold candidate_squares
  rw [List.length_map, List.length_range]

theorem pairwise_shipdisj_replace {pre post : List Ship} {s s2 : Ship}
    (hsq : s2.squares = s.squares)
    (h : (pre ++ s :: post).Pairwise ShipDisj) :
    (pre ++ s2 :: post).Pairwise ShipDisj := by
  rw [List.pairwise_append] at h ⊢
  obtain ⟨h1, h2, h3⟩ := h
  rw [List.pairwise_cons] at h2 ⊢
  refine ⟨h1, ⟨?_, h2.2⟩, ?_⟩
  · intro b hb
    intro q hq
    rw [hsq] at hq
    exact h2.1 b hb q hq
  · intro a ha b hb
    rcases List.mem_cons.mp hb with hh | hh
    · subst hh
      intro q hq hq2
      rw [hsq] at hq2
      exact h3 a ha s (by simp) q hq hq2
    · exact h3 a ha b (by simp [hh])

theorem pyIdx_mem {l : List α} {i : Int} {a : α} (h : pyIdx l i = some a) : a ∈ l := by
  unfold pyIdx at h
  split at h
  · exact mem_of_lidx h
  · exact absurd h (by simp)

theorem pyGet2_new_board {d v : α} {hh ww : Nat} {y x : Int}
    (h : pyGet2 (new_board d hh ww) y x = some v) : v = d := by
  simp only [pyGet2] at h
  cases hby : pyIdx (new_board d hh ww) y with
  | none => rw [hby] at h; exact absurd h (by simp)
  | some row =>
    rw [hby, Option.some_bind] at h
    have hrow : row = List.replicate ww d :=
      List.eq_of_mem_replicate (pyIdx_mem hby)
    have := pyIdx_mem h
    rw [hrow] at this
    exact List.eq_of_mem_replicate this

theorem rect_new_board (d : α) (hh ww : Nat) : Rect (new_board d hh ww) hh ww := by
  constructor
  · simp [new_board]
  · intro row hr
    rw [List.eq_of_mem_replicate hr]
    simp

/-! ## The invariant holds in every reachable state -/

theorem Vec2.eq_iff {q c : Vec2} : q = c ↔ q.y = c.y ∧ q.x = c.x := by
  constructor
  · rintro rfl
    exact ⟨rfl, rfl⟩
  · rintro ⟨h1, h2⟩
    cases q
    cases c
    simp_all

theorem inv_init : Inv User.init User.init := by
  refine ⟨rect_new_board _ _ _, rect_new_board _ _ _, List.Pairwise.nil,
    ?_, ?_, ?_, ?_, ?_, ?_⟩ <;>
    first
    | (intro s hs; exact absurd hs (by simp [User.init]))
    | (intro q hq hget
       have := pyGet2_new_board hget
       simp at this)

theorem inv_place {sh ow ow2 : User} {origin : Vec2} {dir : Orientation} {len : Int}
    {r : Option Ship} (hinv : Inv sh ow) (hlen : 1 ≤ len)
    (h : new_valid_ship origin dir len ow = some (r, ow2)) : Inv sh ow2 := by
  have hH : 0 < BOARD_HEIGHT := by norm_num [BOARD_HEIGHT]
  obtain ⟨hfail, hsucc⟩ := new_valid_ship_cases origin dir len ow hinv.rb hH
  by_cases hin : ∀ q ∈ candidate_squares origin dir len, InB BOARD_HEIGHT BOARD_WIDTH q
  · by_cases hov : ∀ ex ∈ ow.ships, ∀ q ∈ candidate_squares origin dir len, q ∉ ex.squares
    · obtain ⟨b2, hset, heq⟩ := hsucc hin hov
      rw [heq] at h
      have how2 : ow2 = { ow with
          ships := ow.ships ++ [⟨0, false, candidate_squares origin dir len⟩],
          board := b2 } := by
        have hh := Option.some.inj h
        exact (congrArg Prod.snd hh).symm
      subst how2
      obtain ⟨b2x, hsetx, hr2, hcells⟩ :=
        set_ship_squares_spec (candidate_squares origin dir len) ow.board hinv.rb hin
      have hbb : b2x = b2 := by
        rw [hset] at hsetx
        exact (Option.some.inj hsetx).symm
      subst hbb
      have hql : (candidate_squares origin dir len).length = len.toNat :=
        candidate_squares_length origin dir len
      refine ⟨hinv.rk, hr2, ?_, ?_, ?_, ?_, ?_, ?_, ?_⟩
      · rw [List.pairwise_append]
        refine ⟨hinv.disj, by simp, ?_⟩
        intro a ha b hb
        simp only [List.mem_singleton] at hb
        subst hb
        intro q hq hq2
        exact hov a ha q hq2 hq
      · intro s hs
        rcases List.mem_append.mp hs with hh | hh
        · exact hinv.nodup s hh
        · simp only [List.mem_singleton] at hh
          subst hh
          exact candidate_squares_nodup origin dir len
      · intro s hs
        rcases List.mem_append.mp hs with hh | hh
        · exact hinv.inb s hh
        · simp only [List.mem_singleton] at hh
          subst hh
          exact hin
      · intro s hs
        rcases List.mem_append.mp hs with hh | hh
        · exact hinv.nonempty s hh
        · simp only [List.mem_singleton] at hh
          subst hh
          refine List.length_pos.mp ?_
          rw [hql]
          omega
      · intro s hs
        rcases List.mem_append.mp hs with hh | hh
        · exact hinv.hits_eq s hh
        · simp only [List.mem_singleton] at hh
          subst hh
          have : ((candidate_squares origin dir len).filter fun q =>
              decide (pyGet2 sh.knowledge q.y q.x = some KnowledgeSquareState.HIT)) = [] := by
            rw [List.filter_eq_nil_iff]
            intro q hq
            simp only [decide_eq_true_eq]
            intro hhit
            obtain ⟨ex, hex, hqex⟩ := hinv.hit_covered q (hin q hq) hhit
            exact hov ex hex q hq hqex
          show (0 : Nat) = hitCount sh.knowledge _
          unfold hitCount
          rw [this]
          rfl
      · intro s hs
        rcases List.mem_append.mp hs with hh | hh
        · exact hinv.sunk_iff s hh
        · simp only [List.mem_singleton] at hh
          subst hh
          refine iff_of_false (by simp) ?_
          show ¬ (0 = (candidate_squares origin dir len).length)
          rw [hql]
          omega
      · intro q hq hget
        obtain ⟨ex, hex, hqex⟩ := hinv.hit_covered q hq hget
        exact ⟨ex, List.mem_append_left _ hex, hqex⟩
    · push_neg at hov
      obtain ⟨ex, hex, q, hq, hq2⟩ := hov
      rw [hfail (Or.inr ⟨ex, hex, q, hq, hq2⟩)] at h
      have how2 : ow2 = ow := by
        have hh := Option.some.inj h
        exact (congrArg Prod.snd hh).symm
      subst how2
      exact hinv
  · rw [hfail (Or.inl hin)] at h
    have how2 : ow2 = ow := by
      have hh := Option.some.inj h
      exact (congrArg Prod.snd hh).symm
    subst how2
    exact hinv

/-- One fire_missile step preserves the invariant, and its result is SUNK
exactly when the shot lands on a not-yet-fired square of a ship whose hit
counter thereby reaches its length. -/
theorem inv_fire {sh ow sh2 ow2 : User} {c : Vec2} {res : FireResult}
    (hinv : Inv sh ow) (h : fire_missile c sh ow = some (res, sh2, ow2)) :
    Inv sh2 ow2 ∧
    (res = FireResult.SUNK ↔ ∃ s, s ∈ ow.ships ∧ c ∈ s.squares ∧
      pyGet2 sh.knowledge c.y c.x = some KnowledgeSquareState.UNKNOWN ∧
      s.hits + 1 = s.squares.length) := by
  cases hk : pyGet2 sh.knowledge c.y c.x with
  | none =>
    simp only [fire_missile, hk] at h
    exact absurd h (by simp)
  | some k =>
    by_cases hku : k = KnowledgeSquareState.UNKNOWN
    · subst hku
      cases hscan : fire_scan c ow.ships with
      | none =>
        simp only [fire_missile, hk, hscan, ne_eq, not_true_eq_false, if_false] at h
        cases hsk : pySet2 sh.knowledge c.y c.x KnowledgeSquareState.MISS with
        | none => rw [hsk] at h; simp at h
        | some sk =>
          rw [hsk] at h
          cases htb : pySet2 ow.board c.y c.x SquareState.MISS with
          | none => rw [htb] at h; simp at h
          | some tb =>
            rw [htb] at h
            obtain ⟨hres, hsh2, how2⟩ : FireResult.MISS = res ∧
                { sh with knowledge := sk } = sh2 ∧ { ow with board := tb } = ow2 := by
              have hh := Option.some.inj h
              exact ⟨congrArg Prod.fst hh, congrArg (fun z => z.2.1) hh,
                congrArg (fun z => z.2.2) hh⟩
            subst hres; subst hsh2; subst how2
            have hchar : ∀ q : Vec2, InB BOARD_HEIGHT BOARD_WIDTH q →
                pyGet2 sk q.y q.x = pyGet2 sh.knowledge q.y q.x ∨
                (pyGet2 sk q.y q.x = some KnowledgeSquareState.MISS ∧
                  pyGet2 sh.knowledge q.y q.x = some KnowledgeSquareState.UNKNOWN) := by
              rintro q ⟨h1, h2, h3, h4⟩
              have hch := (pySet2_spec hinv.rk hsk).2 q.y q.x h3 h4 h1 h2
              by_cases hc2 : q.y = pyCanon BOARD_HEIGHT c.y ∧ q.x = pyCanon BOARD_WIDTH c.x
              · right
                refine ⟨by rw [hch, if_pos hc2], ?_⟩
                rw [hc2.1, hc2.2]
                exact pyGet2_eq_canon hinv.rk hk
              · left
                rw [hch, if_neg hc2]
            refine ⟨⟨(pySet2_spec hinv.rk hsk).1, (pySet2_spec hinv.rb htb).1,
              hinv.disj, hinv.nodup, hinv.inb, hinv.nonempty, ?_, hinv.sunk_iff, ?_⟩, ?_⟩
            · intro s hs
              rw [hinv.hits_eq s hs]
              unfold hitCount
              congr 1
              refine List.filter_congr fun q hq => ?_
              rcases hchar q (hinv.inb s hs q hq) with hh | ⟨hh1, hh2⟩
              · rw [hh]
              · rw [hh1, hh2]
                simp
            · intro q hq hget
              rcases hchar q hq with hh | ⟨hh1, hh2⟩
              · exact hinv.hit_covered q hq (by rw [← hh]; exact hget)
              · rw [hget] at hh1
                simp at hh1
            · refine iff_of_false (by simp) ?_
              rintro ⟨s, hs, hcs, -, -⟩
              exact fire_scan_none.mp hscan s hs hcs
      | some p =>
        obtain ⟨ships2, sunkb⟩ := p
        simp only [fire_missile, hk, hscan, ne_eq, not_true_eq_false, if_false] at h
        cases htb : pySet2 ow.board c.y c.x SquareState.HIT with
        | none => rw [htb] at h; simp at h
        | some tb =>
          rw [htb] at h
          cases hsk : pySet2 sh.knowledge c.y c.x KnowledgeSquareState.HIT with
          | none => rw [hsk] at h; simp at h
          | some sk =>
            rw [hsk] at h
            obtain ⟨hres, hsh2, how2⟩ : (if sunkb then FireResult.SUNK else FireResult.HIT)
                  = res ∧
                { sh with knowledge := sk } = sh2 ∧
                { ow with board := tb, ships := ships2 } = ow2 := by
              have hh := Option.some.inj h
              exact ⟨congrArg Prod.fst hh, congrArg (fun z => z.2.1) hh,
                congrArg (fun z => z.2.2) hh⟩
            subst hsh2; subst how2
            obtain ⟨pre, s, post, hships, hpre, hcs, hl, hb⟩ := fire_scan_some hscan
            rw [Ship.hit_fst] at hl
            have hsmem : s ∈ ow.ships := by
              rw [hships]
              simp
            have hcin : InB BOARD_HEIGHT BOARD_WIDTH c := hinv.inb s hsmem c hcs
            obtain ⟨hc1, hc2, hc3, hc4⟩ := hcin
            have hcanY : pyCanon BOARD_HEIGHT c.y = c.y := pyCanon_of_nonneg hc3 hc4
            have hcanX : pyCanon BOARD_WIDTH c.x = c.x := pyCanon_of_nonneg hc1 hc2
            have hchar : ∀ q : Vec2, InB BOARD_HEIGHT BOARD_WIDTH q →
                pyGet2 sk q.y q.x =
                  if q = c then some KnowledgeSquareState.HIT
                  else pyGet2 sh.knowledge q.y q.x := by
              rintro q ⟨h1, h2, h3, h4⟩
              have hch := (pySet2_spec hinv.rk hsk).2 q.y q.x h3 h4 h1 h2
              rw [hch, hcanY, hcanX]
              by_cases he : q = c
              · rw [if_pos (Vec2.eq_iff.mp he), if_pos he]
              · rw [if_neg (fun hh => he (Vec2.eq_iff.mpr hh)), if_neg he]
            have hPW : (pre ++ s :: post).Pairwise ShipDisj := hships ▸ hinv.disj
            have hpost : ∀ t ∈ post, c ∉ t.squares := by
              intro t ht hct
              have := (List.pairwise_cons.mp (List.pairwise_append.mp hPW).2.1).1 t ht
              exact this c hcs hct
            have horig : ∀ t : Ship, t ∈ pre ∨ t ∈ post → t ∈ ow.ships := by
              intro t ht
              rw [hships]
              rcases ht with hh | hh
              · exact List.mem_append_left _ hh
              · exact List.mem_append_right _ (by simp [hh])
            have hmem2 : ∀ t : Ship, t ∈ ships2 →
                t ∈ pre ∨ t = hit_result s ∨ t ∈ post := by
              intro t ht
              rw [hl] at ht
              rcases List.mem_append.mp ht with hh | hh
              · exact Or.inl hh
              · rcases List.mem_cons.mp hh with hh | hh
                · exact Or.inr (Or.inl hh)
                · exact Or.inr (Or.inr hh)
            have hnotc : ∀ t : Ship, t ∈ pre ∨ t ∈ post → c ∉ t.squares := by
              intro t ht
              rcases ht with hh | hh
              · exact hpre t hh
              · exact hpost t hh
            have huntouched : ∀ t : Ship, t ∈ pre ∨ t ∈ post →
                hitCount sk t = hitCount sh.knowledge t := by
              intro t ht
              unfold hitCount
              congr 1
              refine List.filter_congr fun q hq => ?_
              have hqin := hinv.inb t (horig t ht) q hq
              rw [hchar q hqin, if_neg]
              intro he
              exact hnotc t ht (he ▸ hq)
            have hcount_s : hitCount sk (hit_result s) = hitCount sh.knowledge s + 1 := by
              show ((hit_result s).squares.filter _).length = _
              have hsq : (hit_result s).squares = s.squares := rfl
              rw [hsq]
              refine length_filter_flip (hinv.nodup s hsmem) hcs ?_ ?_ ?_
              · intro b hb hne
                have hbin := hinv.inb s hsmem b hb
                rw [hchar b hbin, if_neg hne]
              · simp [hk]
              · rw [hchar c ⟨hc1, hc2, hc3, hc4⟩, if_pos rfl]
                simp
            have hold_lt : hitCount sh.knowledge s < s.squares.length := by
              refine length_filter_lt hcs ?_
              simp [hk]
            refine ⟨⟨(pySet2_spec hinv.rk hsk).1, (pySet2_spec hinv.rb htb).1,
              ?_, ?_, ?_, ?_, ?_, ?_, ?_⟩, ?_⟩
            · show ships2.Pairwise ShipDisj
              rw [hl]
              exact pairwise_shipdisj_replace
                (show (hit_result s).squares = s.squares from rfl) hPW
            · intro t ht
              rcases hmem2 t ht with hh | hh | hh
              · exact hinv.nodup t (horig t (Or.inl hh))
              · subst hh
                exact hinv.nodup s hsmem
              · exact hinv.nodup t (horig t (Or.inr hh))
            · intro t ht
              rcases hmem2 t ht with hh | hh | hh
              · exact hinv.inb t (horig t (Or.inl hh))
              · subst hh
                exact hinv.inb s hsmem
              · exact hinv.inb t (horig t (Or.inr hh))
            · intro t ht
              rcases hmem2 t ht with hh | hh | hh
              · exact hinv.nonempty t (horig t (Or.inl hh))
              · subst hh
                exact hinv.nonempty s hsmem
              · exact hinv.nonempty t (horig t (Or.inr hh))
            · intro t ht
              rcases hmem2 t ht with hh | hh | hh
              · rw [huntouched t (Or.inl hh)]
                exact hinv.hits_eq t (horig t (Or.inl hh))
              · subst hh
                show s.hits + 1 = _
                rw [hcount_s, hinv.hits_eq s hsmem]
              · rw [huntouched t (Or.inr hh)]
                exact hinv.hits_eq t (horig t (Or.inr hh))
            · intro t ht
              rcases hmem2 t ht with hh | hh | hh
              · exact hinv.sunk_iff t (horig t (Or.inl hh))
              · subst hh
                by_cases hfull : s.hits + 1 = s.squares.length
                · show (if s.hits + 1 = s.squares.length then true else s.sunk) = true ↔ _
                  rw [if_pos hfull]
                  exact iff_of_true rfl hfull
                · show (if s.hits + 1 = s.squares.length then true else s.sunk) = true ↔ _
                  rw [if_neg hfull]
                  have hssunk : s.sunk = false := by
                    by_contra hcon
                    have : s.sunk = true := by
                      cases hsv : s.sunk
                      · exact absurd hsv hcon
                      · rfl
                    have := (hinv.sunk_iff s hsmem).mp this
                    rw [hinv.hits_eq s hsmem] at this
                    omega
                  rw [hssunk]
                  exact iff_of_false (by simp) hfull
              · exact hinv.sunk_iff t (horig t (Or.inr hh))
            · intro q hq hget
              rw [hchar q hq] at hget
              by_cases he : q = c
              · refine ⟨hit_result s, ?_, ?_⟩
                · rw [hl]
                  simp
                · show q ∈ s.squares
                  rw [he]
                  exact hcs
              · rw [if_neg he] at hget
                obtain ⟨t, htmem, hqt⟩ := hinv.hit_covered q hq hget
                rw [hships] at htmem
                rcases List.mem_append.mp htmem with hh | hh
                · exact ⟨t, by rw [hl]; exact List.mem_append_left _ hh, hqt⟩
                · rcases List.mem_cons.mp hh with hh | hh
                  · subst hh
                    exact ⟨hit_result t, by rw [hl]; simp, hqt⟩
                  · exact ⟨t, by rw [hl]; exact List.mem_append_right _ (by simp [hh]), hqt⟩
            · subst hres
              have hsnd := Ship.hit_snd s
              rw [← hb] at hsnd
              constructor
              · intro hsres
                have hsb : sunkb = true := by
                  cases hsv : sunkb
                  · rw [hsv] at hsres
                    simp at hsres
                  · rfl
                exact ⟨s, hsmem, hcs, rfl, hsnd.mp hsb⟩
              · rintro ⟨t, htmem, hct, -, hfull⟩
                have hts : t = s := by
                  rw [hships] at htmem
                  rcases List.mem_append.mp htmem with hh | hh
                  · exact absurd hct (hpre t hh)
                  · rcases List.mem_cons.mp hh with hh | hh
                    · exact hh
                    · exact absurd hct (hpost t hh)
                subst hts
                rw [hsnd.mpr hfull]
                simp
    · rw [fire_missile_eq_fail hk hku] at h
      obtain ⟨hres, hsh2, how2⟩ : FireResult.FAIL = res ∧ sh = sh2 ∧ ow = ow2 := by
        have hh := Option.some.inj h
        exact ⟨congrArg Prod.fst hh, congrArg (fun z => z.2.1) hh,
          congrArg (fun z => z.2.2) hh⟩
      subst hres; subst hsh2; subst how2
      refine ⟨hinv, iff_of_false (by simp) ?_⟩
      rintro ⟨t, -, -, hkk, -⟩
      exact hku (Option.some.inj hkk)

theorem reach_inv {sh ow : User} (h : Reach sh ow) : Inv sh ow := by
  induction h with
  | init => exact inv_init
  | place sh ow ow2 origin dir len r hr hlen heq ih => exact inv_place ih hlen heq
  | fire sh ow sh2 ow2 c res hr heq ih => exact (inv_fire ih heq).1

/-- C4 counterexample: new_valid_ship accepts length 0 and creates a ship
with no squares; after a fire_missile call at the owner (a miss at (5,5)),
that ship still has sunk = false while hits = 0 = len(squares), violating
the claimed invariant sunk == (hits == len(squares)) after the call. -/
theorem ship_invariant_cex :
    (Option.map (fun r => (r.1, r.2.2.ships.map fun s => (s.sunk, s.hits, s.squares.length)))
      (fire_missile ⟨5, 5⟩ User.init
        (((new_valid_ship ⟨0, 0⟩ Orientation.E 0 User.init).map Prod.snd).getD User.init)))
      = some (FireResult.MISS, [(false, 0, 0)]) := by
  decide

/-- C4 (amended to ships of positive length, the only lengths the game
places: lengths 5,4,3,3,2 for the fleet and abs(displacement) + 1 >= 1 for
the player): in every reachable state each ship's hit counter equals the
number of its own distinct coordinates already hit, never exceeds its
length, and sunk holds exactly when the counter equals the length; and a
fire_missile call returns SUNK exactly when it lands on a not-yet-fired
coordinate of a ship whose counter thereby reaches its length — its
len(squares)-th distinct hit, never earlier and never later. -/
theorem ship_invariant {sh ow : User} (h : Reach sh ow) :
    (∀ s ∈ ow.ships, s.hits = hitCount sh.knowledge s ∧
      s.hits ≤ s.squares.length ∧ (s.sunk = true ↔ s.hits = s.squares.length)) ∧
    (∀ (c : Vec2) (res : FireResult) (sh2 ow2 : User),
      fire_missile c sh ow = some (res, sh2, ow2) →
      (res = FireResult.SUNK ↔ ∃ s, s ∈ ow.ships ∧ c ∈ s.squares ∧
        pyGet2 sh.knowledge c.y c.x = some KnowledgeSquareState.UNKNOWN ∧
        s.hits + 1 = s.squares.length)) := by
  have hinv := reach_inv h
  constructor
  · intro s hs
    refine ⟨hinv.hits_eq s hs, ?_, hinv.sunk_iff s hs⟩
    rw [hinv.hits_eq s hs]
    exact List.length_filter_le _ _
  · intro c res sh2 ow2 hf
    exact (inv_fire hinv hf).2

/-- C6 counterexample: the fleet consisting of the single squareless ship
that new_valid_ship creates for length 0 is reachable by one placement;
for it "every ship's hit count equals its length" holds (0 = 0) while
"every ship's sunk flag is true" is false, refuting the claimed
equivalence. -/
theorem all_sunk_cex :
    new_valid_ship ⟨0, 0⟩ Orientation.E 0 User.init =
      some (some ⟨0, false, []⟩, { User.init with ships := [⟨0, false, []⟩] }) ∧
    ([(⟨0, false, []⟩ : Ship)].all fun s => s.sunk) = false ∧
    (⟨0, false, []⟩ : Ship).hits = (⟨0, false, []⟩ : Ship).squares.length := by
  refine ⟨by decide, rfl, rfl⟩

/-- C6 (amended to placements of positive length, the only lengths the
game places): for every reachable fleet, the win-detection predicate
"every ship's sunk flag is true" holds if and only if every ship's hit
count equals its length, and a single ship with hit count below its length
falsifies it regardless of the other ships. -/
theorem all_sunk_iff {sh ow : User} (h : Reach sh ow) :
    ((ow.ships.all fun s => s.sunk) = true ↔
      ∀ s ∈ ow.ships, s.hits = s.squares.length) ∧
    (∀ s ∈ ow.ships, s.hits < s.squares.length →
      (ow.ships.all fun s => s.sunk) = false) := by
  have hinv := reach_inv h
  constructor
  · rw [List.all_eq_true]
    constructor
    · intro hall s hs
      exact (hinv.sunk_iff s hs).mp (hall s hs)
    · intro hall s hs
      exact (hinv.sunk_iff s hs).mpr (hall s hs)
  · intro s hs hlt
    cases hall : ow.ships.all fun s => s.sunk
    · rfl
    · exfalso
      rw [List.all_eq_true] at hall
      have := (hinv.sunk_iff s hs).mp (hall s hs)
      omega

/-! ## Counting SHIP cells (placement phase) -/

theorem filter_lset_count {l : List α} {i : Nat} {a : α} (v : α) (p : α → Bool)
    (ha : lidx l i = some a) :
    ((lset l i v).filter p).length + (if p a then 1 else 0)
      = (l.filter p).length + (if p v then 1 else 0) := by
  induction l generalizing i with
  | nil => simp [lidx] at ha
  | cons h t ih =>
    cases i with
    | zero =>
      have : a = h := by
        simp [lidx] at ha
        exact ha.symm
      subst this
      show ((v :: t).filter p).length + _ = ((a :: t).filter p).length + _
      rw [List.filter_cons, List.filter_cons]
      cases hp : p a <;> cases hpv : p v <;> simp
    | succ i =>
      have := ih ha
      show ((h :: lset t i v).filter p).length + _ = ((h :: t).filter p).length + _
      rw [List.filter_cons, List.filter_cons]
      cases hp : p h <;> simp [hp] <;> omega

theorem sum_map_lset {l : List α} {i : Nat} {a : α} (v : α) (f : α → Nat)
    (ha : lidx l i = some a) :
    ((lset l i v).map f).sum + f a = (l.map f).sum + f v := by
  induction l generalizing i with
  | nil => simp [lidx] at ha
  | cons h t ih =>
    cases i with
    | zero =>
      have : a = h := by
        simp [lidx] at ha
        exact ha.symm
      subst this
      show ((v :: t).map f).sum + f a = ((a :: t).map f).sum + f v
      simp [List.map_cons]
      omega
    | succ i =>
      have := ih ha
      show ((h :: lset t i v).map f).sum + f a = ((h :: t).map f).sum + f v
      simp only [List.map_cons, List.sum_cons]
      omega

/-- Effect of one in-bounds write on the number of cells holding t. -/
theorem count_cells_set [DecidableEq α] {b b2 : List (List α)} {H W : Nat}
    (hr : Rect b H W) {y x : Int} {v w : α}
    (hget : pyGet2 b y x = some w) (hset : pySet2 b y x v = some b2) (t : α) :
    count_cells b2 t + (if w = t then 1 else 0)
      = count_cells b t + (if v = t then 1 else 0) := by
  simp only [pySet2] at hset
  cases hby : pyIdx b y with
  | none => rw [hby] at hset; exact absurd hset (by simp)
  | some row =>
    rw [hby, Option.some_bind] at hset
    cases hsx : pySetL row x v with
    | none => rw [hsx] at hset; exact absurd hset (by simp)
    | some row2 =>
      rw [hsx, Option.some_bind] at hset
      obtain ⟨⟨hy1, hy2⟩, hb2⟩ := pySetL_some hset
      obtain ⟨⟨hx1, hx2⟩, hrow2⟩ := pySetL_some hsx
      obtain ⟨hy1b, hy2b⟩ := pyIdx_some_bounds hby
      have hrowl : lidx b (pyNat b.length y) = some row := by
        rw [← pyIdx_eq_lidx hy1b hy2b]
        exact hby
      have hw : lidx row (pyNat row.length x) = some w := by
        simp only [pyGet2, hby, Option.some_bind] at hget
        rw [← pyIdx_eq_lidx hx1 hx2]
        exact hget
      have e1 := sum_map_lset row2 (fun r => (r.filter fun cc => decide (cc = t)).length) hrowl
      have e2 := filter_lset_count v (fun cc => decide (cc = t)) hw
      rw [← hrow2] at e2
      show (b2.map fun r => (r.filter fun cc => decide (cc = t)).length).sum + _
        = (b.map fun r => (r.filter fun cc => decide (cc = t)).length).sum + _
      rw [hb2]
      simp only [] at e1 e2
      have e3 : (if (decide (w = t)) = true then (1 : Nat) else 0)
          = (if w = t then 1 else 0) := by
        by_cases hh : w = t <;> simp [hh]
      have e4 : (if (decide (v = t)) = true then (1 : Nat) else 0)
          = (if v = t then 1 else 0) := by
        by_cases hh : v = t <;> simp [hh]
      omega

theorem count_cells_new_board [DecidableEq α] {d t : α} (hd : d ≠ t) (hh ww : Nat) :
    count_cells (new_board d hh ww) t = 0 := by
  unfold count_cells new_board
  induction hh with
  | zero => rfl
  | succ n ih =>
    rw [List.replicate_succ, List.map_cons, List.sum_cons, ih]
    have : (List.replicate ww d).filter (fun cc => decide (cc = t)) = [] := by
      rw [List.filter_eq_nil_iff]
      intro a ha
      rw [List.eq_of_mem_replicate ha]
      simp [hd]
    rw [this]
    rfl

/-- Writing a Nodup list of fresh (not yet SHIP) in-bounds squares adds
exactly their number to the SHIP cell count. -/
theorem set_ship_squares_count {H W : Nat} :
    ∀ (sqs : List Vec2) (b : List (List SquareState)), Rect b H W → sqs.Nodup →
    (∀ q ∈ sqs, InB H W q) →
    (∀ q ∈ sqs, pyGet2 b q.y q.x ≠ some SquareState.SHIP) →
    ∀ {b2}, set_ship_squares b sqs = some b2 →
    count_cells b2 SquareState.SHIP = count_cells b SquareState.SHIP + sqs.length := by
  intro sqs
  induction sqs with
  | nil =>
    intro b hr _ _ _ b2 hset
    have : b2 = b := (Option.some.inj hset).symm
    subst this
    simp
  | cons q qs ih =>
    intro b hr hnd hin hfresh b2 hset
    obtain ⟨hq1, hq2, hq3, hq4⟩ := hin q (by simp)
    rw [set_ship_squares] at hset
    cases hw : pySet2 b q.y q.x SquareState.SHIP with
    | none => rw [hw] at hset; exact absurd hset (by simp)
    | some b1 =>
      rw [hw] at hset
      obtain ⟨w, hwget⟩ := pyGet2_some_of_rect hr (by omega) hq4 (by omega) hq2
      have hwne : w ≠ SquareState.SHIP := fun he =>
        hfresh q (by simp) (he ▸ hwget)
      obtain ⟨hr1, hchar⟩ := pySet2_spec hr hw
      have hcount1 : count_cells b1 SquareState.SHIP
          = count_cells b SquareState.SHIP + 1 := by
        have := count_cells_set hr hwget hw SquareState.SHIP
        rw [if_neg hwne, if_pos rfl] at this
        omega
      have hfresh1 : ∀ q2 ∈ qs, pyGet2 b1 q2.y q2.x ≠ some SquareState.SHIP := by
        intro q2 hq2m
        obtain ⟨g1, g2, g3, g4⟩ := hin q2 (by simp [hq2m])
        rw [hchar q2.y q2.x g3 g4 g1 g2, pyCanon_of_nonneg hq3 hq4,
          pyCanon_of_nonneg hq1 hq2]
        rw [if_neg]
        · exact hfresh q2 (by simp [hq2m])
        · intro hco
          have : q2 = q := Vec2.eq_iff.mpr hco
          exact (List.nodup_cons.mp hnd).1 (this ▸ hq2m)
      have := ih b1 hr1 (List.nodup_cons.mp hnd).2
        (fun q2 hq2m => hin q2 (by simp [hq2m])) hfresh1 hset
      rw [this, hcount1]
      simp
      omega

/-- The placement-phase invariant of one owner's board and fleet. -/
structure PlaceInv (u : User) : Prop where
  rb : Rect u.board BOARD_HEIGHT BOARD_WIDTH
  disj : u.ships.Pairwise ShipDisj
  nodup : ∀ s ∈ u.ships, s.squares.Nodup
  inb : ∀ s ∈ u.ships, ∀ q ∈ s.squares, InB BOARD_HEIGHT BOARD_WIDTH q
  cells : ∀ q : Vec2, InB BOARD_HEIGHT BOARD_WIDTH q →
    (pyGet2 u.board q.y q.x = some SquareState.SHIP ↔ ∃ s ∈ u.ships, q ∈ s.squares)
  count : count_cells u.board SquareState.SHIP
    = (u.ships.map fun s => s.squares.length).sum

theorem place_inv_init : PlaceInv User.init := by
  refine ⟨rect_new_board _ _ _, List.Pairwise.nil, ?_, ?_, ?_, ?_⟩
  · intro s hs
    exact absurd hs (by simp [User.init])
  · intro s hs
    exact absurd hs (by simp [User.init])
  · intro q hq
    refine iff_of_false ?_ (by simp [User.init])
    intro hget
    have := pyGet2_new_board hget
    simp at this
  · show count_cells (new_board SquareState.EMPTY BOARD_HEIGHT BOARD_WIDTH) _ = _
    rw [count_cells_new_board (by simp) BOARD_HEIGHT BOARD_WIDTH]
    rfl

theorem place_inv_step {u u2 : User} {origin : Vec2} {dir : Orientation} {len : Int}
    {r : Option Ship} (hp : PlaceInv u)
    (h : new_valid_ship origin dir len u = some (r, u2)) : PlaceInv u2 := by
  have hH : 0 < BOARD_HEIGHT := by norm_num [BOARD_HEIGHT]
  obtain ⟨hfail, hsucc⟩ := new_valid_ship_cases origin dir len u hp.rb hH
  by_cases hin : ∀ q ∈ candidate_squares origin dir len, InB BOARD_HEIGHT BOARD_WIDTH q
  · by_cases hov : ∀ ex ∈ u.ships, ∀ q ∈ candidate_squares origin dir len, q ∉ ex.squares
    · obtain ⟨b2, hset, heq⟩ := hsucc hin hov
      rw [heq] at h
      have how2 : u2 = { u with
          ships := u.ships ++ [⟨0, false, candidate_squares origin dir len⟩],
          board := b2 } := by
        have hh := Option.some.inj h
        exact (congrArg Prod.snd hh).symm
      subst how2
      obtain ⟨b2x, hsetx, hr2, hcells⟩ :=
        set_ship_squares_spec (candidate_squares origin dir len) u.board hp.rb hin
      have hbb : b2x = b2 := by
        rw [hset] at hsetx
        exact (Option.some.inj hsetx).symm
      subst hbb
      have hfresh : ∀ q ∈ candidate_squares origin dir len,
          pyGet2 u.board q.y q.x ≠ some SquareState.SHIP := by
        intro q hq hget
        obtain ⟨ex, hex, hqex⟩ := (hp.cells q (hin q hq)).mp hget
        exact hov ex hex q hq hqex
      have hcount := set_ship_squares_count (candidate_squares origin dir len) u.board
        hp.rb (candidate_squares_nodup origin dir len) hin hfresh hset
      refine ⟨hr2, ?_, ?_, ?_, ?_, ?_⟩
      · rw [List.pairwise_append]
        refine ⟨hp.disj, by simp, ?_⟩
        intro a ha b hb
        simp only [List.mem_singleton] at hb
        subst hb
        intro q hq hq2
        exact hov a ha q hq2 hq
      · intro s hs
        rcases List.mem_append.mp hs with hh | hh
        · exact hp.nodup s hh
        · simp only [List.mem_singleton] at hh
          subst hh
          exact candidate_squares_nodup origin dir len
      · intro s hs
        rcases List.mem_append.mp hs with hh | hh
        · exact hp.inb s hh
        · simp only [List.mem_singleton] at hh
          subst hh
          exact hin
      · intro q hq
        obtain ⟨g1, g2, g3, g4⟩ := hq
        have heta : (⟨q.x, q.y⟩ : Vec2) = q := rfl
        rw [hcells q.y q.x g3 g4 g1 g2, heta]
        by_cases hqm : q ∈ candidate_squares origin dir len
        · rw [if_pos hqm]
          refine iff_of_true rfl ?_
          exact ⟨⟨0, false, candidate_squares origin dir len⟩,
            List.mem_append_right _ (by simp), hqm⟩
        · rw [if_neg hqm]
          rw [hp.cells q ⟨g1, g2, g3, g4⟩]
          constructor
          · rintro ⟨s, hs, hqs⟩
            exact ⟨s, List.mem_append_left _ hs, hqs⟩
          · rintro ⟨s, hs, hqs⟩
            rcases List.mem_append.mp hs with hh | hh
            · exact ⟨s, hh, hqs⟩
            · simp only [List.mem_singleton] at hh
              subst hh
              exact absurd hqs hqm
      · show count_cells b2x SquareState.SHIP = _
        rw [hcount, hp.count]
        simp
    · push_neg at hov
      obtain ⟨ex, hex, q, hq, hq2⟩ := hov
      rw [hfail (Or.inr ⟨ex, hex, q, hq, hq2⟩)] at h
      have how2 : u2 = u := by
        have hh := Option.some.inj h
        exact (congrArg Prod.snd hh).symm
      subst how2
      exact hp
  · rw [hfail (Or.inl hin)] at h
    have how2 : u2 = u := by
      have hh := Option.some.inj h
      exact (congrArg Prod.snd hh).symm
    subst how2
    exact hp

theorem place_seq_inv :
    ∀ (reqs : List (Vec2 × Orientation × Int)) (u0 u : User), PlaceInv u0 →
      place_seq reqs u0 = some u → PlaceInv u := by
  intro reqs
  induction reqs with
  | nil =>
    intro u0 u hp h
    have : u = u0 := (Option.some.inj h).symm
    subst this
    exact hp
  | cons rq rest ih =>
    intro u0 u hp h
    rw [place_seq] at h
    cases hstep : new_valid_ship rq.1 rq.2.1 rq.2.2 u0 with
    | none => rw [hstep] at h; exact absurd h (by simp)
    | some p =>
      rw [hstep] at h
      exact ih p.2 u (place_inv_step hp (by rw [hstep])) h

/-- C7: after any sequence of new_valid_ship calls on a fresh owner (the
placement phase, before any firing), no two of the owner's ships share a
coordinate, and the number of board cells in state SHIP equals the sum of
len(squares) over the owner's placed ships. -/
theorem placement_disjoint_count (reqs : List (Vec2 × Orientation × Int)) (u : User)
    (h : place_seq reqs User.init = some u) :
    u.ships.Pairwise ShipDisj ∧
    count_cells u.board SquareState.SHIP
      = (u.ships.map fun s => s.squares.length).sum := by
  have hp := place_seq_inv reqs User.init u place_inv_init h
  exact ⟨hp.disj, hp.count⟩

/-! ## Concrete witnesses -/

/-- C9 counterexample: with a well-formed two-character input and a board
with no rows, square_in_board's board[0] raises an IndexError that the
except ValueError clause does not catch: decode_notation crashes (none)
instead of returning a result, refuting the claim over every board. -/
theorem decode_notation_cex :
    decode_notation ['a', '0'] ([] : List (List SquareState)) = none := by
  decide

/-- The user holding the single length-2 ship at (0,0)-(1,0). -/
def placed_user : User :=
  ((new_valid_ship ⟨0, 0⟩ Orientation.E 2 User.init).map Prod.snd).getD User.init

/-- A user whose knowledge board has already been marked at (0, 0). -/
def miss_user : User :=
  { User.init with knowledge :=
      (pySet2 User.init.knowledge 0 0 KnowledgeSquareState.MISS).getD User.init.knowledge }

theorem fire_missile_resolution_witness :
    ∃ sk tb,
      pySet2 User.init.knowledge (Vec2.mk 5 5).y (Vec2.mk 5 5).x
          KnowledgeSquareState.MISS = some sk ∧
      pySet2 User.init.board (Vec2.mk 5 5).y (Vec2.mk 5 5).x SquareState.MISS = some tb ∧
      fire_missile ⟨5, 5⟩ User.init User.init =
        some (FireResult.MISS, { User.init with knowledge := sk },
          { User.init with board := tb }) ∧
      pyGet2 sk (Vec2.mk 5 5).y (Vec2.mk 5 5).x = some KnowledgeSquareState.MISS ∧
      pyGet2 tb (Vec2.mk 5 5).y (Vec2.mk 5 5).x = some SquareState.MISS :=
  (fire_missile_resolution (H := 10) (W := 10) ⟨5, 5⟩ User.init User.init
    (by decide) (by decide) (by decide) (by decide) (by decide) (by decide)
    (by decide)).1 (by decide)

theorem fire_missile_already_fired_witness :
    fire_missile ⟨0, 0⟩ miss_user User.init =
      some (FireResult.FAIL, miss_user, User.init) :=
  fire_missile_already_fired (H := 10) (W := 10) ⟨0, 0⟩ miss_user User.init
    (by decide) (by decide) (by decide) (by decide) (by decide) (by decide)

theorem new_valid_ship_spec_witness :
    ∃ b2, new_valid_ship ⟨0, 0⟩ Orientation.E 2 User.init =
        some (some ⟨0, false, candidate_squares ⟨0, 0⟩ Orientation.E 2⟩,
          { User.init with
            ships := User.init.ships ++ [⟨0, false, candidate_squares ⟨0, 0⟩ Orientation.E 2⟩],
            board := b2 }) ∧
      (∀ q ∈ candidate_squares ⟨0, 0⟩ Orientation.E 2,
        pyGet2 b2 q.y q.x = some SquareState.SHIP) :=
  (new_valid_ship_spec (H := 10) (W := 10) ⟨0, 0⟩ Orientation.E 2 User.init
    (by decide) (by decide)).2 (by decide) (by decide)

theorem ship_invariant_witness :
    (∀ s ∈ placed_user.ships, s.hits = hitCount User.init.knowledge s ∧
      s.hits ≤ s.squares.length ∧ (s.sunk = true ↔ s.hits = s.squares.length)) ∧
    (∀ (c : Vec2) (res : FireResult) (sh2 ow2 : User),
      fire_missile c User.init placed_user = some (res, sh2, ow2) →
      (res = FireResult.SUNK ↔ ∃ s, s ∈ placed_user.ships ∧ c ∈ s.squares ∧
        pyGet2 User.init.knowledge c.y c.x = some KnowledgeSquareState.UNKNOWN ∧
        s.hits + 1 = s.squares.length)) :=
  ship_invariant (Reach.place User.init User.init placed_user ⟨0, 0⟩ Orientation.E 2
    (some ⟨0, false, [⟨0, 0⟩, ⟨1, 0⟩]⟩) Reach.init (by decide) (by decide))

theorem all_sunk_iff_witness :
    ((placed_user.ships.all fun s => s.sunk) = true ↔
      ∀ s ∈ placed_user.ships, s.hits = s.squares.length) ∧
    (∀ s ∈ placed_user.ships, s.hits < s.squares.length →
      (placed_user.ships.all fun s => s.sunk) = false) :=
  all_sunk_iff (Reach.place User.init User.init placed_user ⟨0, 0⟩ Orientation.E 2
    (some ⟨0, false, [⟨0, 0⟩, ⟨1, 0⟩]⟩) Reach.init (by decide) (by decide))

theorem placement_disjoint_count_witness :
    placed_user.ships.Pairwise ShipDisj ∧
    count_cells placed_user.board SquareState.SHIP
      = (placed_user.ships.map fun s => s.squares.length).sum :=
  placement_disjoint_count [(⟨0, 0⟩, Orientation.E, 2)] placed_user (by decide)

/-- The triple returned by firing at (0, 0) against placed_user. -/
def shot_result : FireResult × User × User :=
  (fire_missile ⟨0, 0⟩ User.init placed_user).getD (FireResult.FAIL, User.init, User.init)

theorem fire_missile_frame_witness :
    shot_result.2.1.board = User.init.board ∧
    shot_result.2.1.ships = User.init.ships ∧
    shot_result.2.2.knowledge = placed_user.knowledge ∧
    (∀ y x : Int, 0 ≤ y → y < (10 : Int) → 0 ≤ x → x < (10 : Int) →
      ¬(y = (Vec2.mk 0 0).y ∧ x = (Vec2.mk 0 0).x) →
      pyGet2 shot_result.2.2.board y x = pyGet2 placed_user.board y x ∧
      pyGet2 shot_result.2.1.knowledge y x = pyGet2 User.init.knowledge y x) ∧
    ((pyGet2 shot_result.2.2.board (Vec2.mk 0 0).y (Vec2.mk 0 0).x
        = some SquareState.MISS ∧
      pyGet2 shot_result.2.1.knowledge (Vec2.mk 0 0).y (Vec2.mk 0 0).x
        = some KnowledgeSquareState.MISS ∧
      shot_result.2.2.ships = placed_user.ships) ∨
     (pyGet2 shot_result.2.2.board (Vec2.mk 0 0).y (Vec2.mk 0 0).x
        = some SquareState.HIT ∧
      pyGet2 shot_result.2.1.knowledge (Vec2.mk 0 0).y (Vec2.mk 0 0).x
        = some KnowledgeSquareState.HIT ∧
      ∃ pre s post, placed_user.ships = pre ++ s :: post ∧
        shot_result.2.2.ships = pre ++ hit_result s :: post)) :=
  fire_missile_frame (H := 10) (W := 10) ⟨0, 0⟩ User.init placed_user
    shot_result.1 shot_result.2.1 shot_result.2.2 (by decide) (by decide)
    (by decide) (by decide) (by decide) (by decide) (by decide) (by decide)

theorem fire_missile_total_witness :
    ∃ r, fire_missile ⟨3, 7⟩ User.init User.init = some r :=
  fire_missile_total (H := 10) (W := 10) ⟨3, 7⟩ User.init User.init
    (by decide) (by decide) (by decide) (by decide) (by decide) (by decide)

theorem decode_notation_spec_witness :
    decode_notation ['c', '4'] User.init.board = some (some ⟨4, 2⟩) :=
  (((decode_notation_spec ['c', '4'] User.init.board (by decide)).2.2 'c' '4' rfl).2
    (by decide)).2 (by decide)

end Battleships
